import Mathlib

/-!
A shallow embedding of the parser-combinator engine in `src/src/parser/chain.ts`
(syntax-parser).  The engine is a backtracking top-down recognizer: a visiter
walks a lazily expanded grammar graph, pushing untried alternatives on a chance
stack and popping them on mismatch, with a version/epoch protocol for lazy state
reset, a FIRST-set cache, and a "next-match" probe that re-runs the visiter over
an empty scanner to enumerate reachable terminals.

chain.ts mutates a cyclic object graph (children plus parent back-pointers).
Here a node's identity is its path from the root, so the invariant
`parent.childs[parentIndex] = self` holds by construction, and the mutually
tail-recursive functions `visiter` / `visiterNextNode` / `onMatchNode` /
`tryChances` (a trampoline via `tailCallOptimize`) become a step function on an
explicit configuration, iterated with fuel.

The scanner, the lexer's token type and the terminal `match` primitives are
imported by chain.ts from sibling modules that are not part of the sources;
those are modelled from the spec (each such definition says so in its doc
comment).  Everything else is translated from chain.ts directly.
-/

set_option maxHeartbeats 1000000

namespace SyntaxParser

/-- Modelled from the spec: a token produced by the external lexer (§6); chain.ts
imports `IToken` from `../lexer/token`, which is not among the sources.  A token
has a textual value and a character span. -/
structure Token where
  value : String
  startPos : Nat
  endPos : Nat
deriving DecidableEq, Repr

/-- Modelled from the spec: the scanner (§4.1), imported by chain.ts from
`./scanner` (not among the sources): a cursor over a finite token buffer. -/
structure Scanner where
  tokens : List Token
  index : Nat
deriving DecidableEq, Repr

def Scanner.getIndex (s : Scanner) : Nat := s.index

def Scanner.setIndex (s : Scanner) (i : Nat) : Scanner := { s with index := i }

/-- Modelled from the spec: `is_end` — the cursor is past the last token (§4.1). -/
def Scanner.isEnd (s : Scanner) : Bool := s.tokens.length ≤ s.index

/-- Modelled from the spec: `rest_count` — tokens remaining (§4.1). -/
def Scanner.getRestTokenCount (s : Scanner) : Nat := s.tokens.length - s.index

def Scanner.read (s : Scanner) : Option Token := s.tokens.get? s.index

/-- Modelled from the spec: `next_after(tok)` — the token immediately following
the given token (§4.1). -/
def nextAfterTok : List Token → Token → Option Token
  | [], _ => none
  | [_], _ => none
  | a :: b :: rest, t => if a = t then some b else nextAfterTok (b :: rest) t

def Scanner.getNextFromToken (s : Scanner) (t : Token) : Option Token :=
  nextAfterTok s.tokens t

/-- Modelled from the spec: `prev_token_from_char(offset)` — the last token whose
span ends at or before `offset` (§4.1). -/
def getPrevTokenFromCharacterIndex (tokens : List Token) (offset : Nat) : Option Token :=
  (tokens.filter fun t => t.endPos ≤ offset).getLast?

/-- Modelled from the spec: `next_token_from_char(offset)` — the first token
whose span starts at or after `offset` (§4.1). -/
def getNextTokenFromCharacterIndex (tokens : List Token) (offset : Nat) : Option Token :=
  (tokens.filter fun t => offset ≤ t.startPos).head?

/-- The `type` tag of `IMatching` in chain.ts: `'string' | 'loose' | 'special'`. -/
inductive MatchingType where
  | string
  | loose
  | special
deriving DecidableEq, Repr

/-- The `value` of an `IMatching`: a string (for `string`/`special`) or a
boolean (for `loose`). -/
inductive MatchingValue where
  | str (s : String)
  | bool (b : Bool)
deriving DecidableEq, Repr

/-- `IMatching` from chain.ts (lines 32-36). -/
structure Matching where
  type : MatchingType
  value : MatchingValue
deriving DecidableEq, Repr

/-- Modelled from the spec: the result of a terminal matcher, `{ match: bool,
token?: Token }` (§6). -/
structure MatchRes where
  matched : Bool
  token : Option Token
deriving DecidableEq, Repr

/-- Modelled from the spec: terminal matcher semantics (§6); `match`,
`matchTrue` and `matchFalse` are imported by chain.ts from `./match`, which is
not among the sources.  A literal matcher matches when the next token's text
equals the literal and consumes it in cost mode; a special matcher consults a
user predicate; loose matchers are zero-cost constant sentinels that never
consume. -/
def runMatch (special : String → Token → Bool) (m : Matching) (s : Scanner)
    (isCostToken : Bool) : MatchRes × Scanner :=
  match m.type, m.value with
  | MatchingType.loose, MatchingValue.bool b => (⟨b, none⟩, s)
  | MatchingType.string, MatchingValue.str v =>
    match s.read with
    | none => (⟨false, none⟩, s)
    | some t =>
      if t.value = v then
        (⟨true, some t⟩, if isCostToken then s.setIndex (s.index + 1) else s)
      else (⟨false, some t⟩, s)
  | MatchingType.special, MatchingValue.str name =>
    match s.read with
    | none => (⟨false, none⟩, s)
    | some t =>
      if special name t then
        (⟨true, some t⟩, if isCostToken then s.setIndex (s.index + 1) else s)
      else (⟨false, some t⟩, s)
  | _, _ => (⟨false, none⟩, s)

/-- AST values (`IAst` in chain.ts): a token, a possibly sparse array, or null. -/
inductive AstV where
  | tok (t : Token)
  | arr (l : List (Option AstV))
  | nullV

/-- JavaScript sparse-array assignment `arr[i] = v` (extends with holes when
`i` is beyond the current length), as used for `astResults[parentIndex]`. -/
def listSet (l : List (Option AstV)) (i : Nat) (v : AstV) : List (Option AstV) :=
  if i < l.length then l.set i (some v)
  else l ++ List.replicate (i - l.length) none ++ [some v]

/-- lodash `set(astResults, plusHeadIndex + "." + parentIndex, v)` used by
chain.ts for plus-mode sequences (line 517): writes into a nested row, creating
the row when the slot does not already hold an array. -/
def setPlusAst (l : List (Option AstV)) (i j : Nat) (v : AstV) : List (Option AstV) :=
  let row := match l.get? i with
    | some (some (AstV.arr r)) => r
    | _ => []
  listSet l i (AstV.arr (listSet row j v))

/-- The grammar-graph node variants of chain.ts (`ChainNode`, `TreeNode`,
`MatchNode`, `FunctionNode`).  Parent back-pointers are represented by paths
from the root, so `parent.childs[parentIndex] = self` holds by construction.
`version` is `none` until first stamped (`null` in the source).  The `solveAst`
reducer of a `ChainNode` is the default identity reducer (`args => args`). -/
inductive NodeT where
  | chainN (functionName : Option String) (isPlus : Bool) (headIndex plusHeadIndex : Nat)
      (version : Option Nat) (astResults : List (Option AstV)) (childs : List NodeT)
  | treeN (headIndex : Nat) (version : Option Nat) (childs : List NodeT)
  | matchN (matching : Matching)
  | funcN (functionName : String)

def childsOf : NodeT → List NodeT
  | NodeT.chainN _ _ _ _ _ _ cs => cs
  | NodeT.treeN _ _ cs => cs
  | _ => []

def headIndexOf : NodeT → Nat
  | NodeT.chainN _ _ h _ _ _ _ => h
  | NodeT.treeN h _ _ => h
  | _ => 0

def versionOf : NodeT → Option Nat
  | NodeT.chainN _ _ _ _ v _ _ => v
  | NodeT.treeN _ v _ => v
  | _ => none

def astResultsOf : NodeT → List (Option AstV)
  | NodeT.chainN _ _ _ _ _ ar _ => ar
  | _ => []

def functionNameOf : NodeT → Option String
  | NodeT.chainN fn _ _ _ _ _ _ => fn
  | _ => none

def isPlusOf : NodeT → Bool
  | NodeT.chainN _ ip _ _ _ _ _ => ip
  | _ => false

/-- `ParentNode = TreeNode | ChainNode` in chain.ts. -/
def isParentNode : NodeT → Bool
  | NodeT.chainN _ _ _ _ _ _ _ => true
  | NodeT.treeN _ _ _ => true
  | _ => false

/-- A node's address: the list of child indices from the root
(`parentIndex` chain). -/
abbrev Path := List Nat

def getChild (n : NodeT) (i : Nat) : Option NodeT := (childsOf n).get? i

def setChilds : NodeT → List NodeT → NodeT
  | NodeT.chainN fn ip h ph v ar _, cs => NodeT.chainN fn ip h ph v ar cs
  | NodeT.treeN h v _, cs => NodeT.treeN h v cs
  | n, _ => n

def setChild (n : NodeT) (i : Nat) (c : NodeT) : NodeT :=
  setChilds n ((childsOf n).set i c)

def getNode : NodeT → Path → Option NodeT
  | n, [] => some n
  | n, i :: rest =>
    match getChild n i with
    | none => none
    | some c => getNode c rest

def modifyNode : NodeT → Path → (NodeT → NodeT) → NodeT
  | n, [], f => f n
  | n, i :: rest, f =>
    match getChild n i with
    | none => n
    | some c => setChild n i (modifyNode c rest f)

def setNode (t : NodeT) (p : Path) (n : NodeT) : NodeT := modifyNode t p (fun _ => n)

/-- chain.ts `resetHeadByVersion` (lines 576-586): when the node's version
differs from the store's, stamp the store version and reset `headIndex` to 0,
clearing `astResults` for a sequence node; otherwise leave the node unchanged. -/
def resetHeadByVersion (storeVersion : Nat) (n : NodeT) : NodeT :=
  match n with
  | NodeT.chainN fn ip h ph ver ar cs =>
    if ver = some storeVersion then NodeT.chainN fn ip h ph ver ar cs
    else NodeT.chainN fn ip 0 ph (some storeVersion) [] cs
  | NodeT.treeN h ver cs =>
    if ver = some storeVersion then NodeT.treeN h ver cs
    else NodeT.treeN 0 (some storeVersion) cs
  | x => x

/-- The per-ancestor update of `resetParentsHeadIndexAndVersion`:
`headIndex := parentIndex + 1` clamped by the child count, stamp the version. -/
def setHeadClamped (n : NodeT) (i v : Nat) : NodeT :=
  match n with
  | NodeT.chainN fn ip _ ph _ ar cs =>
    NodeT.chainN fn ip (min (i + 1) cs.length) ph (some v) ar cs
  | NodeT.treeN _ _ cs => NodeT.treeN (min (i + 1) cs.length) (some v) cs
  | x => x

/-- Set `headIndex` and stamp a version (used by `tryChances` on the popped
chance's node). -/
def setHeadVer (h v : Nat) : NodeT → NodeT
  | NodeT.chainN fn ip _ ph _ ar cs => NodeT.chainN fn ip h ph (some v) ar cs
  | NodeT.treeN _ _ cs => NodeT.treeN h (some v) cs
  | n => n

/-- Set only `headIndex` (used when FIRST-set pruning exhausts a sequence). -/
def setHeadOnly (h : Nat) : NodeT → NodeT
  | NodeT.chainN fn ip _ ph v ar cs => NodeT.chainN fn ip h ph v ar cs
  | NodeT.treeN _ v cs => NodeT.treeN h v cs
  | n => n

def incHead : NodeT → NodeT
  | NodeT.chainN fn ip h ph v ar cs => NodeT.chainN fn ip (h + 1) ph v ar cs
  | NodeT.treeN h v cs => NodeT.treeN (h + 1) v cs
  | n => n

/-- chain.ts `resetParentsHeadIndexAndVersion` (lines 589-601): walk the
ancestors of the node addressed by the path, setting each ancestor's
`headIndex` just past its spine child (clamped by the child count) and stamping
the new version; the node itself and all `astResults` are untouched. -/
def resetParentsHeadIndexAndVersion (v : Nat) : NodeT → Path → NodeT
  | n, [] => n
  | n, i :: rest =>
    let n' := setHeadClamped n i v
    match getChild n' i with
    | none => n'
    | some c => setChild n' i (resetParentsHeadIndexAndVersion v c rest)

/-- Association-list lookup standing for `Map.get` in chain.ts. -/
def lookupS {α : Type} : List (String × α) → String → Option α
  | [], _ => none
  | (k, v) :: rest, key => if k = key then some v else lookupS rest key

/-- Association-list update standing for `Map.set` in chain.ts. -/
def insertS {α : Type} : List (String × α) → String → α → List (String × α)
  | [], key, v => [(key, v)]
  | (k, w) :: rest, key, v =>
    if k = key then (k, v) :: rest else (k, w) :: insertS rest key v

/-- `relatedSet.get(name).add(member)` / `relatedSet.set(name, new Set([member]))`. -/
def addRelated (rel : List (String × List String)) (key member : String) :
    List (String × List String) :=
  match lookupS rel key with
  | some ms => if member ∈ ms then rel else insertS rel key (ms ++ [member])
  | none => insertS rel key [member]

/-- `FirstOrFunctionSet = MatchNode | string` from chain.ts (line 19). -/
inductive FirstOrF where
  | matchNode (m : Matching)
  | fname (s : String)
deriving DecidableEq, Repr

/-- The `Parser` object of chain.ts (lines 10-17): version counter, FIRST-set
tables and related-rule index. -/
structure ParserSt where
  version : Nat
  firstSet : List (String × List Matching)
  firstOrFunctionSet : List (String × List FirstOrF)
  relatedSet : List (String × List String)
deriving DecidableEq, Repr

/-- `parser.getNewVersion()` (line 16). -/
def getNewVersion (p : ParserSt) : Nat × ParserSt :=
  (p.version + 1, { p with version := p.version + 1 })

/-- chain.ts `getFirstOrFunctionSet` (lines 654-676), over a worklist and with
an explicit recursion bound: a sequence contributes its first child, a choice
all of its alternatives, a terminal itself, and a rule reference its name plus
a related-set edge from the referenced name to the collecting rule. -/
def getFOFs : Nat → List NodeT → String → List (String × List String) →
    List FirstOrF × List (String × List String)
  | 0, _, _, rel => ([], rel)
  | _ + 1, [], _, rel => ([], rel)
  | f + 1, n :: rest, functionName, rel =>
    let first :=
      match n with
      | NodeT.chainN _ _ _ _ _ _ cs => getFOFs f (cs.take 1) functionName rel
      | NodeT.treeN _ _ cs => getFOFs f cs functionName rel
      | NodeT.matchN m => ([FirstOrF.matchNode m], rel)
      | NodeT.funcN rname => ([FirstOrF.fname rname], addRelated rel rname functionName)
    let rest' := getFOFs f rest functionName first.2
    (first.1 ++ rest'.1, rest'.2)

/-- Recursion bound for the FIRST-set walk (large enough for any grammar whose
body has fewer than a million nodes). -/
def fofFuel : Nat := 1000000

def isMatchNodeF : FirstOrF → Bool
  | FirstOrF.matchNode _ => true
  | FirstOrF.fname _ => false

def extractMatchings (l : List FirstOrF) : List Matching :=
  l.filterMap fun f =>
    match f with
    | FirstOrF.matchNode m => some m
    | FirstOrF.fname _ => none

/-- chain.ts `solveFirstSet` (lines 678-715), faithful to the source: replace
resolved name placeholders, and publish the FIRST set when only terminals
remain.  Note that line 712,
`relatedFunctionNames.forEach(relatedFunctionName => solveFirstSet)`, only
references the resolver value without invoking it, so publishing never
re-resolves the dependents recorded in the related set. -/
def solveFirstSet (functionName : String) (p : ParserSt) : ParserSt :=
  if (lookupS p.firstSet functionName).isSome then p
  else
    match lookupS p.firstOrFunctionSet functionName with
    | none => p
    | some firstMatchNodes =>
      let newFirstMatchNodes := firstMatchNodes.foldl
        (fun all f =>
          match f with
          | FirstOrF.fname s =>
            match lookupS p.firstSet s with
            | some ms => all ++ ms.map FirstOrF.matchNode
            | none => all ++ [f]
          | FirstOrF.matchNode _ => all ++ [f])
        []
      let p1 := { p with
        firstOrFunctionSet := insertS p.firstOrFunctionSet functionName newFirstMatchNodes }
      if newFirstMatchNodes.all isMatchNodeF then
        { p1 with
          firstSet := insertS p1.firstSet functionName (extractMatchings newFirstMatchNodes) }
      else p1

/-- chain.ts `generateFirstSet` (lines 639-652). -/
def generateFirstSet (node : NodeT) (p : ParserSt) : ParserSt :=
  match functionNameOf node with
  | none => p
  | some functionName =>
    if (lookupS p.firstSet functionName).isSome then p
    else
      let fm := getFOFs fofFuel [node] functionName p.relatedSet
      let p1 := { p with
        relatedSet := fm.2,
        firstOrFunctionSet := insertS p.firstOrFunctionSet functionName fm.1 }
      solveFirstSet functionName p1

/-- Modelled from the spec: §4.3 step 2 requires that when a rule's FIRST set
is published every dependent recorded in the related set is itself re-resolved
(§9 notes that chain.ts line 712 fails to make this call).  This is the
spec-intended resolver, with an explicit recursion bound; it differs from
`solveFirstSet` only by actually recursing into the related rules after
publishing. -/
def solveFirstSetSpec : Nat → String → ParserSt → ParserSt
  | 0, _, p => p
  | f + 1, functionName, p =>
    if (lookupS p.firstSet functionName).isSome then p
    else
      match lookupS p.firstOrFunctionSet functionName with
      | none => p
      | some firstMatchNodes =>
        let newFirstMatchNodes := firstMatchNodes.foldl
          (fun all fof =>
            match fof with
            | FirstOrF.fname s =>
              match lookupS p.firstSet s with
              | some ms => all ++ ms.map FirstOrF.matchNode
              | none => all ++ [fof]
            | FirstOrF.matchNode _ => all ++ [fof])
          []
        let p1 := { p with
          firstOrFunctionSet := insertS p.firstOrFunctionSet functionName newFirstMatchNodes }
        if newFirstMatchNodes.all isMatchNodeF then
          let p2 := { p1 with
            firstSet := insertS p1.firstSet functionName (extractMatchings newFirstMatchNodes) }
          match lookupS p2.relatedSet functionName with
          | some names => names.foldl (fun acc n => solveFirstSetSpec f n acc) p2
          | none => p2
        else p1

/-- `generateFirstSet` with the spec-intended resolver (see `solveFirstSetSpec`). -/
def generateFirstSetSpec (node : NodeT) (p : ParserSt) : ParserSt :=
  match functionNameOf node with
  | none => p
  | some functionName =>
    if (lookupS p.firstSet functionName).isSome then p
    else
      let fm := getFOFs fofFuel [node] functionName p.relatedSet
      let p1 := { p with
        relatedSet := fm.2,
        firstOrFunctionSet := insertS p.firstOrFunctionSet functionName fm.1 }
      solveFirstSetSpec fofFuel functionName p1

/-- Rule-body elements accepted by the `chain` builder (`IElement` in
chain.ts): a literal, a loose boolean, a named special matcher, a nested
alternative list, an inline sub-chain (possibly plus-marked), or a rule
reference. -/
inductive Element where
  | str (s : String)
  | bool (b : Bool)
  | special (displayName : String)
  | group (elements : List Element)
  | sub (isPlus : Bool) (elements : List Element)
  | ref (functionName : String)

/-- `element.name` as used by `solveDirectLeftRecursion`: only rule-reference
elements (plain functions) carry a name. -/
def elementName : Element → Option String
  | Element.ref n => some n
  | _ => none

def elementNameEq (e : Element) (parentFunctionName : Option String) : Bool :=
  match elementName e, parentFunctionName with
  | some a, some b => a = b
  | _, _ => false

/-- chain.ts `solveDirectLeftRecursion` (lines 223-231): the doc comment
describes rewriting `a → a b | a c | d | e` into `a → (d | e) ((b) | (c))*`,
but the body only computes the two filtered lists (the work is marked TODO)
and returns `elements` unchanged. -/
def solveDirectLeftRecursion (elements : List Element)
    (parentFunctionName : Option String) : List Element :=
  let leftRecursionElements := elements.filter fun e => elementNameEq e parentFunctionName
  let normalElements := elements.filter fun e => !(elementNameEq e parentFunctionName)
  let _ := leftRecursionElements
  let _ := normalElements
  elements

/-- `IChance` from chain.ts (lines 233-237); the node is addressed by its path. -/
structure Chance where
  path : Path
  headIndex : Nat
  tokenIndex : Nat
deriving DecidableEq, Repr

/-- The `lastMatchUnderShortestRestToken` record of `createParser`
(lines 274-278), with the match node addressed by its path. -/
structure LastMatch where
  restTokenCount : Nat
  path : Path
  matching : Matching
  token : Option Token
deriving DecidableEq, Repr

/-- The trampoline's pending call: `visiter(node)` or
`visiterNextNode(node, astValue)`. -/
inductive Control where
  | visit (path : Path)
  | visitNext (path : Path) (ast : AstV)

/-- The two `VisiterOption` instantiations that occur in chain.ts: the main
parse (counters, AST generation and FIRST-set pruning on, `onMatchNode`
consuming) and the next-match probe of `findNextMatchNodes` (AST generation and
FIRST-set pruning off, no counters, `onMatchNode` recording). -/
inductive VMode where
  | parse
  | probe
deriving DecidableEq, Repr

def VMode.generateAst : VMode → Bool
  | VMode.parse => true
  | VMode.probe => false

def VMode.enableFirstSet : VMode → Bool
  | VMode.parse => true
  | VMode.probe => false

/-- Static data of a visit: mode, the special-matcher environment, the rule
environment (each named rule's freshly built chain node, as produced by its
`chainNodeFactory`), and the cursor-preceding token of the current parse. -/
structure Ctx where
  mode : VMode
  special : String → Token → Bool
  rules : String → Option NodeT
  cursorPrevToken : Option Token

/-- The dynamic state: the (mutated) grammar tree, the scanner, the store
version, the parser object, the chance stack (head = most recently pushed),
the best-progress tracker with a ghost trace of every non-loose match, the
probe's recorded terminals, the cursor-prev candidates and the two call
counters, plus the pending trampoline call. -/
structure Config where
  tree : NodeT
  scanner : Scanner
  version : Nat
  parserState : ParserSt
  chances : List Chance
  lastMatch : Option LastMatch
  matchTrace : List LastMatch
  recorded : List (Path × Matching)
  cursorPrevNodes : List Path
  callVisiterCount : Nat
  callParentCount : Nat
  control : Control

/-- How a visit ends: `success` (`onSuccess`), `fail` (`onFail` from
`tryChances` on an empty stack), `stuck` (the visiter silently returns from an
exhausted choice node), `budget` (a call-counter guard threw), `buildErr`
(an unexpected node, e.g. an unknown rule name). -/
inductive Outcome where
  | success
  | fail
  | stuck
  | budget
  | buildErr
deriving DecidableEq, Repr

inductive StepRes where
  | next (c : Config)
  | done (o : Outcome) (c : Config)

def outConfig : StepRes → Config
  | StepRes.next c => c
  | StepRes.done _ c => c

/-- chain.ts line 38. -/
def MAX_VISITER_CALL : Nat := 10000000

/-- chain.ts `tryChances` (lines 544-574): bump the version; with an empty
chance stack report failure, otherwise pop the most recent chance, rewind the
scanner to its `tokenIndex`, restore the popped node's `headIndex`, stamp the
node and all its ancestors with the new version
(`resetParentsHeadIndexAndVersion`) and resume visiting at the node. -/
def tryChances (c : Config) : StepRes :=
  let vp := getNewVersion c.parserState
  let c1 := { c with parserState := vp.2, version := vp.1 }
  match c1.chances with
  | [] => StepRes.done Outcome.fail c1
  | ch :: rest =>
    let tree1 := modifyNode c1.tree ch.path (setHeadVer ch.headIndex vp.1)
    let tree2 := resetParentsHeadIndexAndVersion vp.1 tree1 ch.path
    StepRes.next { c1 with
      tree := tree2,
      scanner := c1.scanner.setIndex ch.tokenIndex,
      chances := rest,
      control := Control.visit ch.path }

def astOfToken : Option Token → AstV
  | some t => AstV.tok t
  | none => AstV.nullV

/-- The FIRST-set pruning test of the visiter (chain.ts lines 439-457): for a
named sequence about to start, with a resolved FIRST set none of whose
terminals matches in no-cost mode, the sequence can fail immediately. -/
def firstSetBlocks (ctx : Ctx) (c : Config) (node : NodeT) : Bool :=
  ctx.mode.enableFirstSet &&
    match functionNameOf node with
    | none => false
    | some fname =>
      decide (headIndexOf node = 0) &&
        match lookupS c.parserState.firstSet fname with
        | none => false
        | some fmns => !(fmns.any fun m => (runMatch ctx.special m c.scanner false).1.matched)

/-- The `ChainNode` branch of `visiter` (chain.ts lines 436-465). -/
def visitChain (ctx : Ctx) (c0 : Config) (path : Path) (node0 : NodeT) : StepRes :=
  let node := resetHeadByVersion c0.version node0
  let c := { c0 with tree := setNode c0.tree path node }
  if firstSetBlocks ctx c node then
    tryChances { c with tree := setNode c.tree path (setHeadOnly (childsOf node).length node) }
  else
    match (childsOf node).get? (headIndexOf node) with
    | some _ =>
      StepRes.next { c with
        tree := setNode c.tree path (incHead node),
        control := Control.visit (path ++ [headIndexOf node]) }
    | none =>
      StepRes.next { c with
        control := Control.visitNext path
          (if ctx.mode.generateAst then AstV.arr (astResultsOf node) else AstV.nullV) }

/-- The `TreeNode` branch of `visiter` (chain.ts lines 468-482): push a chance
at the next alternative when one remains, then descend; with no child left the
visiter silently returns (`stuck`). -/
def visitTree (c0 : Config) (path : Path) (node0 : NodeT) : StepRes :=
  let node := resetHeadByVersion c0.version node0
  let c := { c0 with tree := setNode c0.tree path node }
  let c1 :=
    if headIndexOf node < (childsOf node).length - 1 then
      { c with chances := ⟨path, headIndexOf node + 1, c0.scanner.index⟩ :: c.chances }
    else c
  match (childsOf node).get? (headIndexOf node) with
  | some _ =>
    StepRes.next { c1 with
      tree := setNode c1.tree path (incHead node),
      control := Control.visit (path ++ [headIndexOf node]) }
  | none => StepRes.done Outcome.stuck c1

/-- The best-progress update of the parse-mode `onMatchNode` (chain.ts lines
313-326): a loose terminal never updates the tracker; a non-loose terminal
replaces it exactly when it leaves strictly fewer tokens remaining.  The ghost
trace records every non-loose successful match. -/
def updateTracker (lm : Option LastMatch) (tr : List LastMatch) (m : Matching)
    (lm0 : LastMatch) : Option LastMatch × List LastMatch :=
  if m.type = MatchingType.loose then (lm, tr)
  else
    (some (match lm with
      | none => lm0
      | some old => if lm0.restTokenCount < old.restTokenCount then lm0 else old),
     tr ++ [lm0])

/-- The parse-mode `onMatchNode` (chain.ts lines 306-336): run the matcher in
cost mode; on mismatch backtrack; on match update the best-progress tracker
for a non-loose terminal, record a cursor-prev candidate when the consumed
token is the cursor-preceding token, and ascend with the token as the AST
value. -/
def visitMatchParse (ctx : Ctx) (c : Config) (path : Path) (m : Matching) : StepRes :=
  let pr := runMatch ctx.special m c.scanner true
  if pr.1.matched then
    let s' := pr.2
    let lm0 : LastMatch := ⟨s'.getRestTokenCount, path, m, pr.1.token⟩
    let tt := updateTracker c.lastMatch c.matchTrace m lm0
    StepRes.next { c with
      scanner := s',
      lastMatch := tt.1,
      matchTrace := tt.2,
      cursorPrevNodes :=
        if (match ctx.cursorPrevToken with
            | none => false
            | some t => decide (pr.1.token = some t)) then
          c.cursorPrevNodes ++ [path]
        else c.cursorPrevNodes,
      control := Control.visitNext path (astOfToken pr.1.token) }
  else tryChances c

/-- The probe-mode `onMatchNode` of `findNextMatchNodes` (chain.ts lines
618-627): a loose terminal with value true is skipped over via visit-next
without being recorded; every other terminal is recorded and then treated as a
failed match so the probe keeps exploring via `tryChances`. -/
def visitMatchProbe (c : Config) (path : Path) (m : Matching) : StepRes :=
  if m.type = MatchingType.loose ∧ m.value = MatchingValue.bool true then
    StepRes.next { c with control := Control.visitNext path AstV.nullV }
  else tryChances { c with recorded := c.recorded ++ [(path, m)] }

/-- The `FunctionNode` branch of `visiter` (chain.ts lines 483-487): expand the
reference by its `chainNodeFactory` (which registers the rule's FIRST set),
splice the expansion into the parent at the same index, and visit it. -/
def visitFunc (ctx : Ctx) (c : Config) (path : Path) (fname : String) : StepRes :=
  match ctx.rules fname with
  | none => StepRes.done Outcome.buildErr c
  | some template =>
    StepRes.next { c with
      tree := setNode c.tree path template,
      parserState := generateFirstSet template c.parserState,
      control := Control.visit path }

/-- Dispatch of `visiter` on the node variant (after the call-counter guard). -/
def stepVisit (ctx : Ctx) (c : Config) (path : Path) : StepRes :=
  match getNode c.tree path with
  | none => StepRes.done Outcome.buildErr c
  | some node =>
    match node with
    | NodeT.chainN _ _ _ _ _ _ _ => visitChain ctx c path node
    | NodeT.treeN _ _ _ => visitTree c path node
    | NodeT.matchN m =>
      match ctx.mode with
      | VMode.parse => visitMatchParse ctx c path m
      | VMode.probe => visitMatchProbe c path m
    | NodeT.funcN fname => visitFunc ctx c path fname

/-- `visiterNextNode` (chain.ts lines 493-542), after the call-counter guard:
at the root, signal success when the scanner is at end and otherwise
backtrack; under a sequence parent, store the AST at `parentIndex` (plus-mode
uses the nested row), push the plus repetition chance when the sequence just
completed, and revisit the parent; under a choice parent, skip it upward. -/
def stepVisitNext (ctx : Ctx) (c : Config) (path : Path) (ast : AstV) : StepRes :=
  match path with
  | [] =>
    if c.scanner.isEnd then StepRes.done Outcome.success c
    else tryChances c
  | _ :: _ =>
    let parentPath := path.dropLast
    let pIdx := path.getLastD 0
    match getNode c.tree parentPath with
    | some (NodeT.chainN fn ip h ph ver ar cs) =>
      let ar' :=
        if ctx.mode.generateAst then
          (if ip then setPlusAst ar ph pIdx ast else listSet ar pIdx ast)
        else ar
      if ip && decide (h = cs.length) then
        StepRes.next { c with
          tree := setNode c.tree parentPath (NodeT.chainN fn ip h (ph + 1) ver ar' cs),
          chances := ⟨parentPath, 0, c.scanner.index⟩ :: c.chances,
          control := Control.visit parentPath }
      else
        StepRes.next { c with
          tree := setNode c.tree parentPath (NodeT.chainN fn ip h ph ver ar' cs),
          control := Control.visit parentPath }
    | some (NodeT.treeN _ _ _) =>
      StepRes.next { c with control := Control.visitNext parentPath ast }
    | _ => StepRes.done Outcome.buildErr c

/-- One trampoline step of the engine.  In parse mode `onCallVisiter` /
`onVisiterNextNode` first bump their counter and throw past
`MAX_VISITER_CALL` (chain.ts lines 287-299); the probe of
`findNextMatchNodes` installs no counters. -/
def step (ctx : Ctx) (c : Config) : StepRes :=
  match c.control with
  | Control.visit path =>
    match ctx.mode with
    | VMode.parse =>
      let c1 := { c with callVisiterCount := c.callVisiterCount + 1 }
      if MAX_VISITER_CALL < c1.callVisiterCount then StepRes.done Outcome.budget c1
      else stepVisit ctx c1 path
    | VMode.probe => stepVisit ctx c path
  | Control.visitNext path ast =>
    match ctx.mode with
    | VMode.parse =>
      let c1 := { c with callParentCount := c.callParentCount + 1 }
      if MAX_VISITER_CALL < c1.callParentCount then StepRes.done Outcome.budget c1
      else stepVisitNext ctx c1 path ast
    | VMode.probe => stepVisitNext ctx c path ast

/-- Iterate `step` until the visit ends; `none` when the fuel runs out. -/
def run (ctx : Ctx) : Nat → Config → Option (Outcome × Config)
  | 0, _ => none
  | fuel + 1, c =>
    match step ctx c with
    | StepRes.done o c' => some (o, c')
    | StepRes.next c' => run ctx fuel c'

/-- The head recursion of `findNextMatchNodes` (chain.ts lines 606-608): while
the node's parent is a choice node, move up to the parent. -/
def skipTreeParents (t : NodeT) : Nat → Path → Path
  | 0, p => p
  | f + 1, p =>
    match p with
    | [] => []
    | _ :: _ =>
      match getNode t p.dropLast with
      | some (NodeT.treeN _ _ _) => skipTreeParents t f p.dropLast
      | _ => p

/-- chain.ts `findNextMatchNodes` (lines 604-637): skip up through choice
parents, take a fresh version, stamp the node's spine
(`resetParentsHeadIndexAndVersion`), then run the visiter in probe mode over an
empty scanner, starting at the node's parent when it has one.  Returns the
recorded `(path, matching)` pairs together with the mutated tree and parser
state; `none` when the probe runs out of fuel. -/
def findNextMatchNodes (special : String → Token → Bool) (rules : String → Option NodeT)
    (fuel : Nat) (path0 : Path) (tree : NodeT) (p : ParserSt) :
    Option (List (Path × Matching) × NodeT × ParserSt) :=
  let path := skipTreeParents tree path0.length path0
  let vp := getNewVersion p
  let tree1 := resetParentsHeadIndexAndVersion vp.1 tree path
  let startPath := if path.isEmpty then path else path.dropLast
  let ctx : Ctx := ⟨VMode.probe, special, rules, none⟩
  let c0 : Config := {
    tree := tree1, scanner := ⟨[], 0⟩, version := vp.1, parserState := vp.2,
    chances := [], lastMatch := none, matchTrace := [], recorded := [],
    cursorPrevNodes := [], callVisiterCount := 0, callParentCount := 0,
    control := Control.visit startPath }
  match run ctx fuel c0 with
  | none => none
  | some (_, c1) => some (c1.recorded, c1.tree, c1.parserState)

/-- The fold over `cursorPrevNodes` that concatenates the probes' results
(chain.ts lines 347-352), threading the tree and parser state through the
successive probes. -/
def probeAll (special : String → Token → Bool) (rules : String → Option NodeT)
    (fuel : Nat) : List Path → NodeT → ParserSt →
    Option (List (Path × Matching) × NodeT × ParserSt)
  | [], tree, p => some ([], tree, p)
  | pa :: rest, tree, p =>
    match findNextMatchNodes special rules fuel pa tree p with
    | none => none
    | some (ms, tree1, p1) =>
      match probeAll special rules fuel rest tree1 p1 with
      | none => none
      | some (ms2, tree2, p2) => some (ms ++ ms2, tree2, p2)

/-- The lodash `uniqBy` key `each.matching.type + each.matching.value` used for
`nextMatchNodes` and `suggestions` (string concatenation of the tag and the
stringified value). -/
def matchingKey (m : Matching) : String :=
  (match m.type with
   | MatchingType.string => "string"
   | MatchingType.loose => "loose"
   | MatchingType.special => "special") ++
  (match m.value with
   | MatchingValue.str s => s
   | MatchingValue.bool true => "true"
   | MatchingValue.bool false => "false")

/-- lodash `uniqBy`: keep the first occurrence of each key. -/
def uniqByKey {α : Type} (key : α → String) : List α → List String → List α
  | [], _ => []
  | x :: rest, seen =>
    if key x ∈ seen then uniqByKey key rest seen
    else x :: uniqByKey key rest (key x :: seen)

/-- lodash `uniq` over node references, here over node paths. -/
def dedupPaths : List Path → List Path → List Path
  | [], _ => []
  | p :: rest, seen =>
    if p ∈ seen then dedupPaths rest seen else p :: dedupPaths rest (p :: seen)

/-- JavaScript `matching.value === token.value`: a boolean never equals a
string. -/
def valueEqString : MatchingValue → String → Bool
  | MatchingValue.str s, v => s = v
  | MatchingValue.bool _, _ => false

/-- The `cursorNextToken` filter (chain.ts lines 359-365): keep a candidate
when its own next-match probe offers a terminal whose value equals the
following token's text; probes run in candidate order, threading state. -/
def filterByNextToken (special : String → Token → Bool) (rules : String → Option NodeT)
    (fuel : Nat) (tokenValue : String) : List (Path × Matching) → NodeT → ParserSt →
    Option (List (Path × Matching) × NodeT × ParserSt)
  | [], tree, p => some ([], tree, p)
  | (pa, m) :: rest, tree, p =>
    match findNextMatchNodes special rules fuel pa tree p with
    | none => none
    | some (ms, tree1, p1) =>
      match filterByNextToken special rules fuel tokenValue rest tree1 p1 with
      | none => none
      | some (kept, tree2, p2) =>
        if ms.any (fun q => valueEqString q.2.value tokenValue) then
          some ((pa, m) :: kept, tree2, p2)
        else some (kept, tree2, p2)

/-- `'wrong' | 'incomplete'` (chain.ts line 370). -/
inductive ErrorReason where
  | wrong
  | incomplete
deriving DecidableEq, Repr

/-- The `error` record of the parse result (chain.ts lines 368-372). -/
structure ParseError where
  token : Option Token
  reason : ErrorReason
  suggestions : List Matching
deriving DecidableEq, Repr

/-- The error construction of `createParser` (chain.ts lines 383-398): when a
token follows the best-progress token the error is `wrong` at that following
token; otherwise it is `incomplete` at the best-progress token (absent when no
non-loose terminal ever matched). -/
def mkError (tokens : List Token) (lastMatch : Option LastMatch)
    (suggestions : List Matching) : ParseError :=
  match lastMatch.bind (fun lm => lm.token.bind (nextAfterTok tokens)) with
  | some t => ⟨some t, ErrorReason.wrong, suggestions⟩
  | none => ⟨lastMatch.bind (fun lm => lm.token), ErrorReason.incomplete, suggestions⟩

/-- The root chain node is created by `root()(null, null, 0, parser)`
(chain.ts line 260), i.e. with a null `functionName`, so no FIRST set is
registered for the root itself. -/
def clearFunctionName : NodeT → NodeT
  | NodeT.chainN _ ip h ph v ar cs => NodeT.chainN none ip h ph v ar cs
  | n => n

/-- The parse result (chain.ts lines 403-414), keeping the fields the claims
are about, plus model-level observers mirroring the closure state of
`createParser` (`lastMatchUnderShortestRestToken`, the ghost match trace, and
whether the final scanner is at end). -/
structure ParseResult where
  success : Bool
  ast : Option AstV
  nextMatchings : List Matching
  error : Option ParseError
  lastMatch : Option LastMatch
  matchTrace : List LastMatch
  finalIsEnd : Bool

/-- chain.ts `createParser` applied to a token list (lines 245-415), for a
fresh parser: build the root graph, run the visiter, collect `nextMatchings`
via the next-match probes from the cursor-prev candidates (filtered by the
cursor-next token when there is one), and on failure build the error
diagnostic from the best-progress match.  Returns `none` when the fuel is
exhausted or when the visit throws (budget guard or build error). -/
def parse (special : String → Token → Bool) (rules : String → Option NodeT)
    (rootName : String) (tokens : List Token) (cursorIndex : Nat) (fuel : Nat) :
    Option ParseResult :=
  match rules rootName with
  | none => none
  | some rootTemplate =>
    let rootNode := clearFunctionName rootTemplate
    let p0 : ParserSt := ⟨0, [], [], []⟩
    let vp := getNewVersion p0
    let cursorPrevToken := getPrevTokenFromCharacterIndex tokens cursorIndex
    let ctx : Ctx := ⟨VMode.parse, special, rules, cursorPrevToken⟩
    let c0 : Config := {
      tree := rootNode, scanner := ⟨tokens, 0⟩, version := vp.1, parserState := vp.2,
      chances := [], lastMatch := none, matchTrace := [], recorded := [],
      cursorPrevNodes := [], callVisiterCount := 0, callParentCount := 0,
      control := Control.visit [] }
    match run ctx fuel c0 with
    | none => none
    | some (o, c1) =>
      if o = Outcome.budget ∨ o = Outcome.buildErr then none
      else
      let cursorPrevNodes := dedupPaths
        ((if cursorPrevToken.isNone then [([] : Path)] else []) ++ c1.cursorPrevNodes) []
      match probeAll special rules fuel cursorPrevNodes c1.tree c1.parserState with
      | none => none
      | some (cands0, tree2, p2) =>
        let cands1 := uniqByKey (fun x => matchingKey x.2) cands0 []
        let afterFilter :=
          match getNextTokenFromCharacterIndex tokens cursorIndex with
          | none => some (cands1, tree2, p2)
          | some t => filterByNextToken special rules fuel t.value cands1 tree2 p2
        match afterFilter with
        | none => none
        | some (cands2, tree3, p3) =>
          let nextMatchings := cands2.reverse.map (fun x => x.2)
          if o = Outcome.success then
            some { success := true, ast := some (AstV.arr (astResultsOf c1.tree)),
                   nextMatchings := nextMatchings, error := none,
                   lastMatch := c1.lastMatch, matchTrace := c1.matchTrace,
                   finalIsEnd := c1.scanner.isEnd }
          else
            let basePath := match c1.lastMatch with
              | some lm => lm.path
              | none => []
            match findNextMatchNodes special rules fuel basePath tree3 p3 with
            | none => none
            | some (sugg0, _, _) =>
              let suggestions := uniqByKey matchingKey (sugg0.map (fun x => x.2)) []
              some { success := false, ast := none, nextMatchings := nextMatchings,
                     error := some (mkError tokens c1.lastMatch suggestions),
                     lastMatch := c1.lastMatch, matchTrace := c1.matchTrace,
                     finalIsEnd := c1.scanner.isEnd }

/-! ### Invariant predicates used by the theorems -/

/-- A `loose(true)` matching descriptor. -/
def isLooseTrue (m : Matching) : Prop :=
  m.type = MatchingType.loose ∧ m.value = MatchingValue.bool true

instance (m : Matching) : Decidable (isLooseTrue m) := by
  unfold isLooseTrue; infer_instance

/-- How one step may change the probe's recorded list: unchanged, or extended
at the end by a single non-`loose(true)` terminal. -/
def RecOk (old : List (Path × Matching)) (r : StepRes) : Prop :=
  (outConfig r).recorded = old ∨
    ∃ p m, ¬ isLooseTrue m ∧ (outConfig r).recorded = old ++ [(p, m)]

/-- How one step may change the chance stack: unchanged, one push at the head,
or one pop from the head (LIFO discipline). -/
def ChancesStep (old nw : List Chance) : Prop :=
  nw = old ∨ (∃ ch, nw = ch :: old) ∨ (∃ ch, old = ch :: nw)

/-- The best-progress tracker invariant: the tracked match (when present) is a
non-loose terminal whose remaining-token count is minimal over the ghost trace
of all non-loose successful matches; the trace is empty when nothing was
tracked, and only non-loose matches are traced. -/
def TrackerInv (lm : Option LastMatch) (tr : List LastMatch) : Prop :=
  (∀ l, lm = some l → l.matching.type ≠ MatchingType.loose ∧
      ∀ x ∈ tr, l.restTokenCount ≤ x.restTokenCount) ∧
  (lm = none → tr = []) ∧
  (∀ x ∈ tr, x.matching.type ≠ MatchingType.loose)

/-! ### Concrete demonstration grammars and configurations -/

def looseFalseM : Matching := ⟨MatchingType.loose, MatchingValue.bool false⟩

def looseTrueM : Matching := ⟨MatchingType.loose, MatchingValue.bool true⟩

def aMatching : Matching := ⟨MatchingType.string, MatchingValue.str "a"⟩

/-- `root = chain(['false-loose' | 'a'])`: a single choice between a
`loose(false)` sentinel and the literal `'a'`. -/
def demoRoot : NodeT :=
  NodeT.chainN (some "root") false 0 0 none []
    [NodeT.treeN 0 none [NodeT.matchN looseFalseM, NodeT.matchN aMatching]]

def demoRules : String → Option NodeT := fun n => if n = "root" then some demoRoot else none

def specialNone : String → Token → Bool := fun _ _ => false

def demoCtxParse : Ctx := ⟨VMode.parse, specialNone, demoRules, none⟩

def demoCtxProbe : Ctx := ⟨VMode.probe, specialNone, demoRules, none⟩

def baseCfg : Config :=
  { tree := demoRoot, scanner := ⟨[], 0⟩, version := 1, parserState := ⟨1, [], [], []⟩,
    chances := [], lastMatch := none, matchTrace := [], recorded := [],
    cursorPrevNodes := [], callVisiterCount := 0, callParentCount := 0,
    control := Control.visit [] }

/-- Ascending past the root with an empty (hence exhausted) scanner. -/
def demoCfgRootNext : Config := { baseCfg with control := Control.visitNext [] AstV.nullV }

/-- A configuration holding one chance that points at the choice node `[0]`
of `demoRoot` with `headIndex 1`. -/
def demoCfgChance : Config :=
  { baseCfg with chances := [⟨[0], 1, 0⟩], control := Control.visit [0, 0] }

/-- Probe-mode visit of a `loose(true)` terminal at path `[0]`. -/
def demoCfgLooseTrue : Config :=
  { baseCfg with
    tree := NodeT.chainN none false 1 0 (some 1) [] [NodeT.matchN looseTrueM],
    control := Control.visit [0] }

/-- Probe-mode visit of the literal terminal `'a'` at path `[0]`. -/
def demoCfgRecord : Config :=
  { baseCfg with
    tree := NodeT.chainN none false 1 0 (some 1) [] [NodeT.matchN aMatching],
    control := Control.visit [0] }

/-- A parse-mode configuration whose visiter counter sits exactly at the
budget. -/
def demoCfgBudget : Config := { baseCfg with callVisiterCount := MAX_VISITER_CALL }

def xMatching : Matching := ⟨MatchingType.string, MatchingValue.str "x"⟩

/-- `a = chain(b)` — rule `a`'s body is a single reference to rule `b`. -/
def nodeRuleA : NodeT := NodeT.chainN (some "a") false 0 0 none [] [NodeT.funcN "b"]

/-- `b = chain('x')`. -/
def nodeRuleB : NodeT := NodeT.chainN (some "b") false 0 0 none [] [NodeT.matchN xMatching]

/-- The parser tables after building rule `a` and then rule `b`, with the
faithful resolver of chain.ts. -/
def pAfterCode : ParserSt :=
  generateFirstSet nodeRuleB (generateFirstSet nodeRuleA ⟨0, [], [], []⟩)

/-- The parser tables after the same two builds with the spec-intended
resolver that re-resolves dependents. -/
def pAfterSpec : ParserSt :=
  generateFirstSetSpec nodeRuleB (generateFirstSetSpec nodeRuleA ⟨0, [], [], []⟩)

/-! ### Path and tree lemmas -/

theorem getChild_setChild {n : NodeT} {i : Nat} {c0 : NodeT} (c : NodeT)
    (h : getChild n i = some c0) : getChild (setChild n i c) i = some c := by
  cases n with
  | chainN fn ip hh ph v ar cs =>
    simp only [getChild, childsOf, setChild, setChilds] at h ⊢
    obtain ⟨hlt, -⟩ := List.get?_eq_some.mp h
    exact List.get?_set_eq_of_lt c hlt
  | treeN hh v cs =>
    simp only [getChild, childsOf, setChild, setChilds] at h ⊢
    obtain ⟨hlt, -⟩ := List.get?_eq_some.mp h
    exact List.get?_set_eq_of_lt c hlt
  | matchN m => simp [getChild, childsOf] at h
  | funcN f => simp [getChild, childsOf] at h

theorem headIndexOf_setChild (n : NodeT) (i : Nat) (c : NodeT) :
    headIndexOf (setChild n i c) = headIndexOf n := by
  cases n <;> rfl

theorem versionOf_setChild (n : NodeT) (i : Nat) (c : NodeT) :
    versionOf (setChild n i c) = versionOf n := by
  cases n <;> rfl

theorem astResultsOf_setChild (n : NodeT) (i : Nat) (c : NodeT) :
    astResultsOf (setChild n i c) = astResultsOf n := by
  cases n <;> rfl

theorem childsLength_setChild (n : NodeT) (i : Nat) (c : NodeT) :
    (childsOf (setChild n i c)).length = (childsOf n).length := by
  cases n <;> simp [setChild, setChilds, childsOf]

theorem getChild_setHeadClamped (n : NodeT) (i v j : Nat) :
    getChild (setHeadClamped n i v) j = getChild n j := by
  cases n <;> rfl

theorem getNode_modifyNode {t : NodeT} {p : Path} {n : NodeT} (f : NodeT → NodeT)
    (h : getNode t p = some n) : getNode (modifyNode t p f) p = some (f n) := by
  induction p generalizing t with
  | nil =>
    simp only [getNode, Option.some.injEq] at h
    subst h
    rfl
  | cons i rest ih =>
    simp only [getNode] at h
    cases hc : getChild t i with
    | none => rw [hc] at h; exact absurd h (by simp)
    | some c =>
      rw [hc] at h
      simp only [modifyNode, hc, getNode]
      rw [getChild_setChild (modifyNode c rest f) hc]
      exact ih h

theorem getNode_resetParents (v : Nat) (t : NodeT) (p : Path) :
    getNode (resetParentsHeadIndexAndVersion v t p) p = getNode t p := by
  induction p generalizing t with
  | nil => rfl
  | cons i rest ih =>
    simp only [resetParentsHeadIndexAndVersion]
    cases hc : getChild (setHeadClamped t i v) i with
    | none =>
      have ht : getChild t i = none := by rw [← getChild_setHeadClamped t i v i, hc]
      simp only [getNode, hc, ht]
    | some c =>
      have ht : getChild t i = some c := by rw [← getChild_setHeadClamped t i v i, hc]
      have hset := getChild_setChild (resetParentsHeadIndexAndVersion v c rest) hc
      simp only [getNode, hset, ht]
      exact ih c

/-- The ancestor shape after `resetParentsHeadIndexAndVersion`: an ancestor at
`q` of the target `q ++ i :: r` (with spine child index `i`) keeps its
`astResults` and child count, gets `headIndex = min (i+1) #childs` and the new
version stamp. -/
theorem resetParents_ancestor (v : Nat) (t : NodeT) (q : Path) (i : Nat) (r : Path)
    (a : NodeT) (hq : getNode t q = some a) (ha : isParentNode a = true) :
    ∃ a', getNode (resetParentsHeadIndexAndVersion v t (q ++ i :: r)) q = some a' ∧
      headIndexOf a' = min (i + 1) (childsOf a).length ∧
      versionOf a' = some v ∧
      astResultsOf a' = astResultsOf a ∧
      (childsOf a').length = (childsOf a).length := by
  induction q generalizing t with
  | nil =>
    simp only [getNode, Option.some.injEq] at hq
    subst hq
    simp only [List.nil_append, resetParentsHeadIndexAndVersion]
    cases hc : getChild (setHeadClamped t i v) i with
    | none =>
      refine ⟨setHeadClamped t i v, rfl, ?_, ?_, ?_, ?_⟩ <;>
        cases t <;> simp [setHeadClamped, headIndexOf, versionOf, astResultsOf, childsOf,
          isParentNode] at ha ⊢
    | some c =>
      refine ⟨_, rfl, ?_, ?_, ?_, ?_⟩
      · rw [headIndexOf_setChild]
        cases t <;> simp [setHeadClamped, headIndexOf, childsOf, isParentNode] at ha ⊢
      · rw [versionOf_setChild]
        cases t <;> simp [setHeadClamped, versionOf, isParentNode] at ha ⊢
      · rw [astResultsOf_setChild]
        cases t <;> simp [setHeadClamped, astResultsOf, isParentNode] at ha ⊢
      · rw [childsLength_setChild]
        cases t <;> simp [setHeadClamped, childsOf, isParentNode] at ha ⊢
  | cons j q' ih =>
    simp only [getNode] at hq
    cases hc : getChild t j with
    | none => rw [hc] at hq; exact absurd hq (by simp)
    | some c =>
      rw [hc] at hq
      have hc2 : getChild (setHeadClamped t j v) j = some c := by
        rw [getChild_setHeadClamped]; exact hc
      obtain ⟨a', ha', h1, h2, h3, h4⟩ := ih c hq
      refine ⟨a', ?_, h1, h2, h3, h4⟩
      have hset := getChild_setChild
        (resetParentsHeadIndexAndVersion v c (q' ++ i :: r)) hc2
      simp only [List.cons_append, resetParentsHeadIndexAndVersion, hc2, getNode,
        List.append_eq, hset]
      exact ha'

/-! ### Structural facts about each visiter branch -/

theorem tryChances_out (c : Config) :
    (outConfig (tryChances c)).recorded = c.recorded ∧
    (outConfig (tryChances c)).lastMatch = c.lastMatch ∧
    (outConfig (tryChances c)).matchTrace = c.matchTrace ∧
    ChancesStep c.chances (outConfig (tryChances c)).chances ∧
    (∀ c', tryChances c ≠ StepRes.done Outcome.success c') ∧
    (∀ c', tryChances c ≠ StepRes.done Outcome.budget c') := by
  cases hch : c.chances with
  | nil =>
    refine ⟨?_, ?_, ?_, ?_, ?_, ?_⟩ <;>
      simp [tryChances, hch, outConfig, ChancesStep]
  | cons ch rest =>
    refine ⟨?_, ?_, ?_, ?_, ?_, ?_⟩
    · simp [tryChances, hch, outConfig]
    · simp [tryChances, hch, outConfig]
    · simp [tryChances, hch, outConfig]
    · simp only [tryChances, hch, outConfig]
      exact Or.inr (Or.inr ⟨ch, rfl⟩)
    · intro c' h; simp [tryChances, hch] at h
    · intro c' h; simp [tryChances, hch] at h

theorem visitChain_out (ctx : Ctx) (c : Config) (path : Path) (node : NodeT) :
    (outConfig (visitChain ctx c path node)).recorded = c.recorded ∧
    (outConfig (visitChain ctx c path node)).lastMatch = c.lastMatch ∧
    (outConfig (visitChain ctx c path node)).matchTrace = c.matchTrace ∧
    ChancesStep c.chances (outConfig (visitChain ctx c path node)).chances ∧
    (∀ c', visitChain ctx c path node ≠ StepRes.done Outcome.success c') ∧
    (∀ c', visitChain ctx c path node ≠ StepRes.done Outcome.budget c') := by
  simp only [visitChain]
  split
  · exact tryChances_out _
  · split
    · exact ⟨rfl, rfl, rfl, Or.inl rfl, fun c' h => by simp at h, fun c' h => by simp at h⟩
    · exact ⟨rfl, rfl, rfl, Or.inl rfl, fun c' h => by simp at h, fun c' h => by simp at h⟩

theorem visitTree_out (c : Config) (path : Path) (node : NodeT) :
    (outConfig (visitTree c path node)).recorded = c.recorded ∧
    (outConfig (visitTree c path node)).lastMatch = c.lastMatch ∧
    (outConfig (visitTree c path node)).matchTrace = c.matchTrace ∧
    ChancesStep c.chances (outConfig (visitTree c path node)).chances ∧
    (∀ c', visitTree c path node ≠ StepRes.done Outcome.success c') ∧
    (∀ c', visitTree c path node ≠ StepRes.done Outcome.budget c') := by
  simp only [visitTree]
  split
  · split
    · refine ⟨rfl, rfl, rfl, ?_, fun c' h => by simp at h, fun c' h => by simp at h⟩
      exact Or.inr (Or.inl ⟨_, rfl⟩)
    · exact ⟨rfl, rfl, rfl, Or.inl rfl, fun c' h => by simp at h, fun c' h => by simp at h⟩
  · split
    · refine ⟨rfl, rfl, rfl, ?_, fun c' h => by simp at h, fun c' h => by simp at h⟩
      exact Or.inr (Or.inl ⟨_, rfl⟩)
    · exact ⟨rfl, rfl, rfl, Or.inl rfl, fun c' h => by simp at h, fun c' h => by simp at h⟩

theorem tracker_update_none (tr : List LastMatch) (lm0 : LastMatch)
    (hty : lm0.matching.type ≠ MatchingType.loose)
    (hinv : TrackerInv none tr) : TrackerInv (some lm0) (tr ++ [lm0]) := by
  obtain ⟨-, h2, -⟩ := hinv
  have htr : tr = [] := h2 rfl
  subst htr
  refine ⟨?_, by simp, ?_⟩
  · intro l hl
    obtain rfl : lm0 = l := by injection hl
    exact ⟨hty, by intro x hx; simp at hx; subst hx; exact le_refl _⟩
  · intro x hx
    simp at hx
    subst hx
    exact hty

theorem tracker_update_some (tr : List LastMatch) (old lm0 : LastMatch)
    (hty : lm0.matching.type ≠ MatchingType.loose)
    (hinv : TrackerInv (some old) tr) :
    TrackerInv (some (if lm0.restTokenCount < old.restTokenCount then lm0 else old))
      (tr ++ [lm0]) := by
  obtain ⟨h1, -, h3⟩ := hinv
  obtain ⟨hold, hmin⟩ := h1 old rfl
  by_cases hlt : lm0.restTokenCount < old.restTokenCount
  · rw [if_pos hlt]
    refine ⟨?_, by simp, ?_⟩
    · intro l hl
      obtain rfl : lm0 = l := by injection hl
      refine ⟨hty, ?_⟩
      intro x hx
      rcases List.mem_append.mp hx with hx | hx
      · exact le_of_lt (lt_of_lt_of_le hlt (hmin x hx))
      · simp at hx; subst hx; exact le_refl _
    · intro x hx
      rcases List.mem_append.mp hx with hx | hx
      · exact h3 x hx
      · simp at hx; subst hx; exact hty
  · rw [if_neg hlt]
    refine ⟨?_, by simp, ?_⟩
    · intro l hl
      obtain rfl : old = l := by injection hl
      refine ⟨hold, ?_⟩
      intro x hx
      rcases List.mem_append.mp hx with hx | hx
      · exact hmin x hx
      · simp at hx; subst hx; exact Nat.le_of_not_lt hlt
    · intro x hx
      rcases List.mem_append.mp hx with hx | hx
      · exact h3 x hx
      · simp at hx; subst hx; exact hty

theorem updateTracker_inv (lm : Option LastMatch) (tr : List LastMatch) (m : Matching)
    (lm0 : LastMatch) (hmm : lm0.matching = m) (hinv : TrackerInv lm tr) :
    TrackerInv (updateTracker lm tr m lm0).1 (updateTracker lm tr m lm0).2 := by
  unfold updateTracker
  split
  · exact hinv
  · rename_i hm
    have hty : lm0.matching.type ≠ MatchingType.loose := by rw [hmm]; exact hm
    cases hlm : lm with
    | none =>
      simp only
      exact tracker_update_none tr lm0 hty (hlm ▸ hinv)
    | some old =>
      simp only
      exact tracker_update_some tr old lm0 hty (hlm ▸ hinv)

theorem visitMatchParse_out (ctx : Ctx) (c : Config) (path : Path) (m : Matching) :
    (outConfig (visitMatchParse ctx c path m)).recorded = c.recorded ∧
    ChancesStep c.chances (outConfig (visitMatchParse ctx c path m)).chances ∧
    (∀ c', visitMatchParse ctx c path m ≠ StepRes.done Outcome.success c') ∧
    (∀ c', visitMatchParse ctx c path m ≠ StepRes.done Outcome.budget c') ∧
    (TrackerInv c.lastMatch c.matchTrace →
      TrackerInv (outConfig (visitMatchParse ctx c path m)).lastMatch
        (outConfig (visitMatchParse ctx c path m)).matchTrace) := by
  simp only [visitMatchParse]
  split
  · -- matched: a single record literal
    refine ⟨rfl, Or.inl rfl, fun c' h => by simp at h, fun c' h => by simp at h, ?_⟩
    intro hI
    exact updateTracker_inv c.lastMatch c.matchTrace m _ rfl hI
  · -- mismatch: tryChances
    obtain ⟨h1, h2, h3, h4, h5, h6⟩ := tryChances_out c
    exact ⟨h1, h4, h5, h6, fun hI => by rw [h2, h3]; exact hI⟩

theorem visitMatchProbe_out (c : Config) (path : Path) (m : Matching) :
    RecOk c.recorded (visitMatchProbe c path m) ∧
    (outConfig (visitMatchProbe c path m)).lastMatch = c.lastMatch ∧
    (outConfig (visitMatchProbe c path m)).matchTrace = c.matchTrace ∧
    ChancesStep c.chances (outConfig (visitMatchProbe c path m)).chances ∧
    (∀ c', visitMatchProbe c path m ≠ StepRes.done Outcome.success c') ∧
    (∀ c', visitMatchProbe c path m ≠ StepRes.done Outcome.budget c') := by
  unfold visitMatchProbe
  split
  · exact ⟨Or.inl rfl, rfl, rfl, Or.inl rfl, fun c' h => by simp at h,
      fun c' h => by simp at h⟩
  · rename_i hm
    obtain ⟨h1, h2, h3, h4, h5, h6⟩ :=
      tryChances_out { c with recorded := c.recorded ++ [(path, m)] }
    refine ⟨Or.inr ⟨path, m, ?_, h1⟩, h2, h3, h4, h5, h6⟩
    exact hm

theorem visitFunc_out (ctx : Ctx) (c : Config) (path : Path) (fname : String) :
    (outConfig (visitFunc ctx c path fname)).recorded = c.recorded ∧
    (outConfig (visitFunc ctx c path fname)).lastMatch = c.lastMatch ∧
    (outConfig (visitFunc ctx c path fname)).matchTrace = c.matchTrace ∧
    ChancesStep c.chances (outConfig (visitFunc ctx c path fname)).chances ∧
    (∀ c', visitFunc ctx c path fname ≠ StepRes.done Outcome.success c') ∧
    (∀ c', visitFunc ctx c path fname ≠ StepRes.done Outcome.budget c') := by
  unfold visitFunc
  split
  · exact ⟨rfl, rfl, rfl, Or.inl rfl, fun c' h => by simp at h, fun c' h => by simp at h⟩
  · exact ⟨rfl, rfl, rfl, Or.inl rfl, fun c' h => by simp at h, fun c' h => by simp at h⟩

theorem stepVisit_out (ctx : Ctx) (c : Config) (path : Path) :
    RecOk c.recorded (stepVisit ctx c path) ∧
    ChancesStep c.chances (outConfig (stepVisit ctx c path)).chances ∧
    (∀ c', stepVisit ctx c path ≠ StepRes.done Outcome.success c') ∧
    (∀ c', stepVisit ctx c path ≠ StepRes.done Outcome.budget c') ∧
    (TrackerInv c.lastMatch c.matchTrace →
      TrackerInv (outConfig (stepVisit ctx c path)).lastMatch
        (outConfig (stepVisit ctx c path)).matchTrace) := by
  unfold stepVisit
  split
  · exact ⟨Or.inl rfl, Or.inl rfl, fun c' h => by simp at h, fun c' h => by simp at h,
      fun hI => hI⟩
  · split
    · obtain ⟨h1, h2, h3, h4, h5, h6⟩ := visitChain_out ctx c path _
      exact ⟨Or.inl h1, h4, h5, h6, fun hI => by rw [h2, h3]; exact hI⟩
    · obtain ⟨h1, h2, h3, h4, h5, h6⟩ := visitTree_out c path _
      exact ⟨Or.inl h1, h4, h5, h6, fun hI => by rw [h2, h3]; exact hI⟩
    · split
      · obtain ⟨h1, h2, h3, h4, h5⟩ := visitMatchParse_out ctx c path _
        exact ⟨Or.inl h1, h2, h3, h4, h5⟩
      · obtain ⟨h1, h2, h3, h4, h5, h6⟩ := visitMatchProbe_out c path _
        exact ⟨h1, h4, h5, h6, fun hI => by rw [h2, h3]; exact hI⟩
    · obtain ⟨h1, h2, h3, h4, h5, h6⟩ := visitFunc_out ctx c path _
      exact ⟨Or.inl h1, h4, h5, h6, fun hI => by rw [h2, h3]; exact hI⟩

theorem stepVisitNext_out (ctx : Ctx) (c : Config) (path : Path) (ast : AstV) :
    (outConfig (stepVisitNext ctx c path ast)).recorded = c.recorded ∧
    ChancesStep c.chances (outConfig (stepVisitNext ctx c path ast)).chances ∧
    (outConfig (stepVisitNext ctx c path ast)).lastMatch = c.lastMatch ∧
    (outConfig (stepVisitNext ctx c path ast)).matchTrace = c.matchTrace ∧
    (∀ c', stepVisitNext ctx c path ast = StepRes.done Outcome.success c' →
      c' = c ∧ c.scanner.isEnd = true ∧ path = []) ∧
    (∀ c', stepVisitNext ctx c path ast ≠ StepRes.done Outcome.budget c') := by
  simp only [stepVisitNext]
  split
  · -- root
    split
    · rename_i hend
      refine ⟨rfl, Or.inl rfl, rfl, rfl, ?_, fun c' h => by simp at h⟩
      intro c' h
      injection h with ho hcfg
      exact ⟨hcfg.symm, hend, rfl⟩
    · obtain ⟨h1, h2, h3, h4, h5, h6⟩ := tryChances_out c
      exact ⟨h1, h4, h2, h3, fun c' h => absurd h (h5 c'), h6⟩
  · -- non-root
    split
    · split
      · exact ⟨rfl, Or.inr (Or.inl ⟨_, rfl⟩), rfl, rfl, fun c' h => by simp at h,
          fun c' h => by simp at h⟩
      · exact ⟨rfl, Or.inl rfl, rfl, rfl, fun c' h => by simp at h,
          fun c' h => by simp at h⟩
    · exact ⟨rfl, Or.inl rfl, rfl, rfl, fun c' h => by simp at h, fun c' h => by simp at h⟩
    · exact ⟨rfl, Or.inl rfl, rfl, rfl, fun c' h => by simp at h, fun c' h => by simp at h⟩

/-- The master step fact: one step keeps the probe record discipline, the
chance-stack LIFO discipline and the tracker invariant; `success` only arises
when ascending past the root with the scanner at end; `budget` only arises
with a counter beyond `MAX_VISITER_CALL`. -/
theorem step_out (ctx : Ctx) (c : Config) :
    RecOk c.recorded (step ctx c) ∧
    ChancesStep c.chances (outConfig (step ctx c)).chances ∧
    (TrackerInv c.lastMatch c.matchTrace →
      TrackerInv (outConfig (step ctx c)).lastMatch (outConfig (step ctx c)).matchTrace) ∧
    (∀ c', step ctx c = StepRes.done Outcome.success c' →
      c'.scanner = c.scanner ∧ c'.scanner.isEnd = true ∧
      ∃ a, c.control = Control.visitNext [] a) ∧
    (∀ c', step ctx c = StepRes.done Outcome.budget c' →
      MAX_VISITER_CALL < c'.callVisiterCount ∨ MAX_VISITER_CALL < c'.callParentCount) := by
  obtain ⟨tr, sc, ver, ps, chs, lm, mt, rec, cpn, cvc, cpc, ctl⟩ := c
  cases ctl with
  | visit path =>
    cases hmode : ctx.mode with
    | parse =>
      simp only [step, hmode]
      split
      · rename_i hbig
        refine ⟨Or.inl rfl, Or.inl rfl, fun hI => hI, fun c' h => by simp at h, ?_⟩
        intro c' h
        injection h with ho hcfg
        exact Or.inl (hcfg ▸ hbig)
      · obtain ⟨h1, h2, h3, h4, h5⟩ :=
          stepVisit_out ctx
            ⟨tr, sc, ver, ps, chs, lm, mt, rec, cpn, cvc + 1, cpc, Control.visit path⟩ path
        exact ⟨h1, h2, h5, fun c' h => absurd h (h3 c'), fun c' h => absurd h (h4 c')⟩
    | probe =>
      simp only [step, hmode]
      obtain ⟨h1, h2, h3, h4, h5⟩ :=
        stepVisit_out ctx
          ⟨tr, sc, ver, ps, chs, lm, mt, rec, cpn, cvc, cpc, Control.visit path⟩ path
      exact ⟨h1, h2, h5, fun c' h => absurd h (h3 c'), fun c' h => absurd h (h4 c')⟩
  | visitNext path ast =>
    cases hmode : ctx.mode with
    | parse =>
      simp only [step, hmode]
      split
      · rename_i hbig
        refine ⟨Or.inl rfl, Or.inl rfl, fun hI => hI, fun c' h => by simp at h, ?_⟩
        intro c' h
        injection h with ho hcfg
        exact Or.inr (hcfg ▸ hbig)
      · obtain ⟨h1, h2, h3, h4, h5, h6⟩ :=
          stepVisitNext_out ctx
            ⟨tr, sc, ver, ps, chs, lm, mt, rec, cpn, cvc, cpc + 1,
              Control.visitNext path ast⟩ path ast
        refine ⟨Or.inl h1, h2, fun hI => by rw [h3, h4]; exact hI, ?_,
          fun c' h => absurd h (h6 c')⟩
        intro c' h
        obtain ⟨hc', hend, hpath⟩ := h5 c' h
        exact ⟨by rw [hc'], by rw [hc']; exact hend, ⟨ast, by rw [hpath]⟩⟩
    | probe =>
      simp only [step, hmode]
      obtain ⟨h1, h2, h3, h4, h5, h6⟩ :=
        stepVisitNext_out ctx
          ⟨tr, sc, ver, ps, chs, lm, mt, rec, cpn, cvc, cpc,
            Control.visitNext path ast⟩ path ast
      refine ⟨Or.inl h1, h2, fun hI => by rw [h3, h4]; exact hI, ?_,
        fun c' h => absurd h (h6 c')⟩
      intro c' h
      obtain ⟨hc', hend, hpath⟩ := h5 c' h
      exact ⟨by rw [hc'], by rw [hc']; exact hend, ⟨ast, by rw [hpath]⟩⟩

/-- The created run facts: recorded-terminal discipline, tracker invariant,
success implies scanner at end, budget implies an exceeded counter. -/
theorem run_out (ctx : Ctx) : ∀ (fuel : Nat) (c : Config) (o : Outcome) (c' : Config),
    run ctx fuel c = some (o, c') →
    ((∀ x ∈ c.recorded, ¬ isLooseTrue x.2) → ∀ x ∈ c'.recorded, ¬ isLooseTrue x.2) ∧
    (TrackerInv c.lastMatch c.matchTrace → TrackerInv c'.lastMatch c'.matchTrace) ∧
    (o = Outcome.success → c'.scanner.isEnd = true) ∧
    (o = Outcome.budget →
      MAX_VISITER_CALL < c'.callVisiterCount ∨ MAX_VISITER_CALL < c'.callParentCount) := by
  intro fuel
  induction fuel with
  | zero => intro c o c' h; simp [run] at h
  | succ fuel ih =>
    intro c o c' h
    simp only [run] at h
    obtain ⟨hrec, -, htr, hsucc, hbud⟩ := step_out ctx c
    cases hstep : step ctx c with
    | done o2 c2 =>
      rw [hstep] at h hrec htr
      simp only [Option.some.injEq, Prod.mk.injEq] at h
      obtain ⟨ho, hc⟩ := h
      subst ho
      subst hc
      simp only [RecOk, outConfig] at hrec
      simp only [outConfig] at htr
      refine ⟨?_, htr, ?_, ?_⟩
      · intro hall
        rcases hrec with hsame | ⟨p, m, hgood, happ⟩
        · rw [hsame]; exact hall
        · rw [happ]
          intro x hx
          rcases List.mem_append.mp hx with hx | hx
          · exact hall x hx
          · simp at hx; subst hx; exact hgood
      · intro ho
        subst ho
        obtain ⟨-, hend, -⟩ := hsucc _ hstep
        exact hend
      · intro ho
        subst ho
        exact hbud _ hstep
    | next c2 =>
      rw [hstep] at h hrec htr
      simp only [RecOk, outConfig] at hrec
      simp only [outConfig] at htr
      obtain ⟨ih1, ih2, ih3, ih4⟩ := ih c2 o c' h
      refine ⟨?_, ?_, ih3, ih4⟩
      · intro hall
        refine ih1 ?_
        rcases hrec with hsame | ⟨p, m, hgood, happ⟩
        · rw [hsame]; exact hall
        · rw [happ]
          intro x hx
          rcases List.mem_append.mp hx with hx | hx
          · exact hall x hx
          · simp at hx; subst hx; exact hgood
      · intro hI
        exact ih2 (htr hI)

theorem TrackerInv_init : TrackerInv none [] := by
  refine ⟨fun l hl => by simp at hl, fun _ => rfl, fun x hx => by simp at hx⟩

/-- Every terminal recorded by a next-match probe is non-`loose(true)`. -/
theorem findNextMatchNodes_good (special : String → Token → Bool)
    (rules : String → Option NodeT) (fuel : Nat) (p0 : Path) (tree : NodeT) (p : ParserSt)
    (ms : List (Path × Matching)) (t' : NodeT) (p' : ParserSt)
    (h : findNextMatchNodes special rules fuel p0 tree p = some (ms, t', p')) :
    ∀ x ∈ ms, ¬ isLooseTrue x.2 := by
  simp only [findNextMatchNodes] at h
  split at h
  · exact absurd h (by simp)
  · rename_i o c1 heq
    simp only [Option.some.injEq, Prod.mk.injEq] at h
    obtain ⟨h1, -, -⟩ := h
    subst h1
    obtain ⟨hrec, -, -, -⟩ := run_out _ fuel _ o c1 heq
    exact hrec (fun x hx => absurd hx (List.not_mem_nil x))

theorem probeAll_good (special : String → Token → Bool) (rules : String → Option NodeT)
    (fuel : Nat) : ∀ (paths : List Path) (tree : NodeT) (p : ParserSt)
    (ms : List (Path × Matching)) (t' : NodeT) (p' : ParserSt),
    probeAll special rules fuel paths tree p = some (ms, t', p') →
    ∀ x ∈ ms, ¬ isLooseTrue x.2 := by
  intro paths
  induction paths with
  | nil =>
    intro tree p ms t' p' h
    simp only [probeAll, Option.some.injEq, Prod.mk.injEq] at h
    obtain ⟨h1, -, -⟩ := h
    subst h1
    exact fun x hx => absurd hx (List.not_mem_nil x)
  | cons pa rest ih =>
    intro tree p ms t' p' h
    simp only [probeAll] at h
    split at h
    · exact absurd h (by simp)
    · rename_i ms1 tree1 p1 heq1
      split at h
      · exact absurd h (by simp)
      · rename_i ms2 tree2 p2 heq2
        simp only [Option.some.injEq, Prod.mk.injEq] at h
        obtain ⟨h1, -, -⟩ := h
        subst h1
        intro x hx
        rcases List.mem_append.mp hx with hx | hx
        · exact findNextMatchNodes_good special rules fuel pa tree p ms1 tree1 p1 heq1 x hx
        · exact ih tree1 p1 ms2 tree2 p2 heq2 x hx

theorem uniqByKey_mem {α : Type} (key : α → String) :
    ∀ (l : List α) (seen : List String) (x : α), x ∈ uniqByKey key l seen → x ∈ l := by
  intro l
  induction l with
  | nil => intro seen x h; simp [uniqByKey] at h
  | cons a rest ih =>
    intro seen x h
    simp only [uniqByKey] at h
    split at h
    · exact List.mem_cons_of_mem a (ih _ x h)
    · rcases List.mem_cons.mp h with h | h
      · exact h ▸ List.mem_cons_self a rest
      · exact List.mem_cons_of_mem a (ih _ x h)

theorem filterByNextToken_mem (special : String → Token → Bool)
    (rules : String → Option NodeT) (fuel : Nat) (tv : String) :
    ∀ (l : List (Path × Matching)) (tree : NodeT) (p : ParserSt)
    (kept : List (Path × Matching)) (t' : NodeT) (p' : ParserSt),
    filterByNextToken special rules fuel tv l tree p = some (kept, t', p') →
    ∀ x ∈ kept, x ∈ l := by
  intro l
  induction l with
  | nil =>
    intro tree p kept t' p' h
    simp only [filterByNextToken, Option.some.injEq, Prod.mk.injEq] at h
    obtain ⟨h1, -, -⟩ := h
    subst h1
    exact fun x hx => absurd hx (List.not_mem_nil x)
  | cons q rest ih =>
    intro tree p kept t' p' h
    simp only [filterByNextToken] at h
    split at h
    · exact absurd h (by simp)
    · rename_i ms1 tree1 p1 heq1
      split at h
      · exact absurd h (by simp)
      · rename_i kept1 tree2 p2 heq2
        split at h <;>
          simp only [Option.some.injEq, Prod.mk.injEq] at h <;>
          obtain ⟨h1, -, -⟩ := h <;> subst h1
        · intro x hx
          rcases List.mem_cons.mp hx with hx | hx
          · exact hx ▸ List.mem_cons_self q rest
          · exact List.mem_cons_of_mem q (ih tree1 p1 kept1 tree2 p2 heq2 x hx)
        · exact fun x hx => List.mem_cons_of_mem q (ih tree1 p1 kept1 tree2 p2 heq2 x hx)

/-- The shape of every parse result: `nextMatchings` never contains a
`loose(true)` matching, the tracker invariant holds for the reported
best-progress match, success implies the scanner ended at end of input, and
failure reports exactly the error built by `mkError` from the best-progress
match. -/
theorem parse_shape (special : String → Token → Bool) (rules : String → Option NodeT)
    (rootName : String) (tokens : List Token) (cursorIndex fuel : Nat) (pr : ParseResult)
    (h : parse special rules rootName tokens cursorIndex fuel = some pr) :
    (∀ m ∈ pr.nextMatchings, ¬ isLooseTrue m) ∧
    TrackerInv pr.lastMatch pr.matchTrace ∧
    (pr.success = true → pr.finalIsEnd = true) ∧
    (pr.success = false → ∃ sugg, pr.error = some (mkError tokens pr.lastMatch sugg)) := by
  simp only [parse] at h
  split at h
  · exact absurd h (by simp)
  · rename_i rootTemplate hroot
    split at h
    · exact absurd h (by simp)
    · rename_i o c1 hrun
      obtain ⟨-, htrk, hend, -⟩ := run_out _ fuel _ o c1 hrun
      have htrack : TrackerInv c1.lastMatch c1.matchTrace := htrk TrackerInv_init
      split at h
      · exact absurd h (by simp)
      · split at h
        · exact absurd h (by simp)
        · rename_i cands0 tree2 p2 hprobe
          have hc0 : ∀ x ∈ cands0, ¬ isLooseTrue x.2 :=
            probeAll_good special rules fuel _ _ _ cands0 tree2 p2 hprobe
          split at h
          · exact absurd h (by simp)
          · rename_i cands2 tree3 p3 hfilter
            have hc2 : ∀ x ∈ cands2, ¬ isLooseTrue x.2 := by
              split at hfilter
              · simp only [Option.some.injEq, Prod.mk.injEq] at hfilter
                obtain ⟨h1, -, -⟩ := hfilter
                subst h1
                exact fun x hx => hc0 x (uniqByKey_mem _ _ _ x hx)
              · intro x hx
                exact hc0 x (uniqByKey_mem _ _ _ x
                  (filterByNextToken_mem special rules fuel _ _ _ _ cands2 tree3 p3
                    hfilter x hx))
            split at h
            · -- success
              rename_i hosucc
              simp only [Option.some.injEq] at h
              subst h
              refine ⟨?_, htrack, fun _ => hend hosucc, fun hfalse => by simp at hfalse⟩
              intro m hm
              simp only [List.mem_map] at hm
              obtain ⟨x, hxrev, hxm⟩ := hm
              rw [List.mem_reverse] at hxrev
              exact hxm ▸ hc2 x hxrev
            · -- failure
              split at h
              · exact absurd h (by simp)
              · rename_i sugg0 tree4 p4 hsugg
                simp only [Option.some.injEq] at h
                subst h
                refine ⟨?_, htrack, fun htrue => by simp at htrue, fun _ => ⟨_, rfl⟩⟩
                intro m hm
                simp only [List.mem_map] at hm
                obtain ⟨x, hxrev, hxm⟩ := hm
                rw [List.mem_reverse] at hxrev
                exact hxm ▸ hc2 x hxrev

/-! ### The claims -/

/-- C1: For every parse, the engine reports overall success if and only if the
traversal ascends past the root node (no parent) with the scanner at the end of
the token stream; if the root completes but tokens remain, `tryChances` is
invoked instead of signalling success, so `success = true` implies the scanner
consumed every token.  Formalised as: (i) ascending past the root signals
success exactly when the scanner is at end and otherwise invokes `tryChances`;
(ii) a success step only arises when ascending past the root with the scanner
at end; (iii) a run that ends in success leaves the scanner at end; (iv) a
parse result with `success = true` has its final scanner at end. -/
theorem claim1_success_at_root_end :
    (∀ (ctx : Ctx) (c : Config) (a : AstV), ctx.mode = VMode.parse →
      c.control = Control.visitNext [] a →
      c.callParentCount + 1 ≤ MAX_VISITER_CALL →
      (c.scanner.isEnd = true →
        step ctx c = StepRes.done Outcome.success
          { c with callParentCount := c.callParentCount + 1 }) ∧
      (c.scanner.isEnd = false →
        step ctx c = tryChances { c with callParentCount := c.callParentCount + 1 })) ∧
    (∀ (ctx : Ctx) (c c' : Config), step ctx c = StepRes.done Outcome.success c' →
      (∃ a, c.control = Control.visitNext [] a) ∧ c'.scanner.isEnd = true) ∧
    (∀ (ctx : Ctx) (fuel : Nat) (c c' : Config),
      run ctx fuel c = some (Outcome.success, c') → c'.scanner.isEnd = true) ∧
    (∀ (special : String → Token → Bool) (rules : String → Option NodeT)
      (rootName : String) (tokens : List Token) (cursorIndex fuel : Nat)
      (pr : ParseResult),
      parse special rules rootName tokens cursorIndex fuel = some pr →
      pr.success = true → pr.finalIsEnd = true) := by
  refine ⟨?_, ?_, ?_, ?_⟩
  · intro ctx c a hmode hctl hle
    obtain ⟨md, sp, rl, cpt⟩ := ctx
    obtain ⟨tr, sc, ver, ps, chs, lm, mt, rec, cpn, cvc, cpc, ctl⟩ := c
    simp only at hmode hctl
    subst hmode
    subst hctl
    constructor
    · intro hendT
      simp only [step]
      rw [if_neg (Nat.not_lt.mpr hle)]
      simp only [stepVisitNext]
      rw [if_pos hendT]
    · intro hendF
      simp only [step]
      rw [if_neg (Nat.not_lt.mpr hle)]
      simp only [stepVisitNext]
      rw [if_neg (by simp [hendF])]
  · intro ctx c c' h
    obtain ⟨-, hend, he⟩ := (step_out ctx c).2.2.2.1 c' h
    exact ⟨he, hend⟩
  · intro ctx fuel c c' h
    exact (run_out ctx fuel c Outcome.success c' h).2.2.1 rfl
  · intro special rules rootName tokens cursorIndex fuel pr h
    exact (parse_shape special rules rootName tokens cursorIndex fuel pr h).2.2.1

theorem claim1_witness :
    step demoCtxParse demoCfgRootNext =
      StepRes.done Outcome.success
        { demoCfgRootNext with callParentCount := demoCfgRootNext.callParentCount + 1 } :=
  (claim1_success_at_root_end.1 demoCtxParse demoCfgRootNext AstV.nullV rfl rfl
    (by decide)).1 (by decide)

/-- C3: For every invocation of `tryChances` that pops a chance from a
non-empty chance stack, immediately afterwards the scanner index equals the
`tokenIndex` recorded in the popped chance, the popped node's `headIndex`
equals the chance's recorded `headIndex`, and chances are consumed in LIFO
order: the popped chance is the head of the stack (the most recently pushed,
since every push conses), and every step changes the stack by at most one push
at the head or one pop from the head. -/
theorem claim3_tryChances_pop :
    (∀ (c : Config) (ch : Chance) (rest : List Chance) (n : NodeT),
      c.chances = ch :: rest → getNode c.tree ch.path = some n →
      isParentNode n = true →
      ∃ c', tryChances c = StepRes.next c' ∧
        c'.scanner.index = ch.tokenIndex ∧
        c'.chances = rest ∧
        c'.control = Control.visit ch.path ∧
        ∃ n', getNode c'.tree ch.path = some n' ∧
          headIndexOf n' = ch.headIndex ∧ versionOf n' = some c'.version) ∧
    (∀ (ctx : Ctx) (c c' : Config), step ctx c = StepRes.next c' →
      ChancesStep c.chances c'.chances) := by
  constructor
  · intro c ch rest n hch hn hpar
    simp only [tryChances, hch, getNewVersion]
    refine ⟨_, rfl, rfl, rfl, rfl, ?_⟩
    have hmod := getNode_modifyNode (setHeadVer ch.headIndex (c.parserState.version + 1)) hn
    have hres := getNode_resetParents (c.parserState.version + 1)
      (modifyNode c.tree ch.path (setHeadVer ch.headIndex (c.parserState.version + 1)))
      ch.path
    refine ⟨setHeadVer ch.headIndex (c.parserState.version + 1) n, ?_, ?_, ?_⟩
    · rw [hres, hmod]
    · cases n <;> simp [setHeadVer, headIndexOf, isParentNode] at hpar ⊢
    · cases n <;> simp [setHeadVer, versionOf, isParentNode] at hpar ⊢
  · intro ctx c c' h
    have h2 := (step_out ctx c).2.1
    rw [h] at h2
    exact h2

theorem claim3_witness :
    ∃ c', tryChances demoCfgChance = StepRes.next c' ∧
      c'.scanner.index = 0 ∧ c'.chances = [] ∧ c'.control = Control.visit [0] ∧
      ∃ n', getNode c'.tree [0] = some n' ∧
        headIndexOf n' = 1 ∧ versionOf n' = some c'.version :=
  claim3_tryChances_pop.1 demoCfgChance ⟨[0], 1, 0⟩ []
    (NodeT.treeN 0 none [NodeT.matchN looseFalseM, NodeT.matchN aMatching]) rfl rfl rfl

/-- C4: For every sequence (chain) or choice (tree) node, whenever the visiter
enters it with `node.version` different from the store's current version, the
node's `headIndex` is reset to 0 and, for a sequence node, `astResults` is
cleared, before the node's state is used; if the versions are equal,
`headIndex` and `astResults` are left unchanged.  The last two conjuncts show
the visiter branches use exactly the reset node state: entering on a pre-reset
node is indistinguishable. -/
theorem claim4_reset_head_by_version :
    (∀ (sv : Nat) (fn : Option String) (ip : Bool) (hh ph : Nat) (ver : Option Nat)
      (ar : List (Option AstV)) (cs : List NodeT),
      (ver ≠ some sv → resetHeadByVersion sv (NodeT.chainN fn ip hh ph ver ar cs) =
        NodeT.chainN fn ip 0 ph (some sv) [] cs) ∧
      (ver = some sv → resetHeadByVersion sv (NodeT.chainN fn ip hh ph ver ar cs) =
        NodeT.chainN fn ip hh ph ver ar cs)) ∧
    (∀ (sv hh : Nat) (ver : Option Nat) (cs : List NodeT),
      (ver ≠ some sv → resetHeadByVersion sv (NodeT.treeN hh ver cs) =
        NodeT.treeN 0 (some sv) cs) ∧
      (ver = some sv → resetHeadByVersion sv (NodeT.treeN hh ver cs) =
        NodeT.treeN hh ver cs)) ∧
    (∀ (ctx : Ctx) (c : Config) (path : Path) (n : NodeT),
      visitChain ctx c path n = visitChain ctx c path (resetHeadByVersion c.version n)) ∧
    (∀ (c : Config) (path : Path) (n : NodeT),
      visitTree c path n = visitTree c path (resetHeadByVersion c.version n)) := by
  have hidem : ∀ (sv : Nat) (n : NodeT),
      resetHeadByVersion sv (resetHeadByVersion sv n) = resetHeadByVersion sv n := by
    intro sv n
    cases n with
    | chainN fn ip hh ph ver ar cs =>
      by_cases hv : ver = some sv <;> simp [resetHeadByVersion, hv]
    | treeN hh ver cs =>
      by_cases hv : ver = some sv <;> simp [resetHeadByVersion, hv]
    | matchN m => rfl
    | funcN f => rfl
  refine ⟨?_, ?_, ?_, ?_⟩
  · intro sv fn ip hh ph ver ar cs
    constructor
    · intro hv; simp only [resetHeadByVersion]; rw [if_neg hv]
    · intro hv; simp only [resetHeadByVersion]; rw [if_pos hv]
  · intro sv hh ver cs
    constructor
    · intro hv; simp only [resetHeadByVersion]; rw [if_neg hv]
    · intro hv; simp only [resetHeadByVersion]; rw [if_pos hv]
  · intro ctx c path n
    simp only [visitChain, hidem]
  · intro c path n
    simp only [visitTree, hidem]

theorem claim4_witness :
    resetHeadByVersion 2
        (NodeT.chainN (some "root") false 1 0 (some 1) [some AstV.nullV] []) =
      NodeT.chainN (some "root") false 0 0 (some 2) [] [] :=
  (claim4_reset_head_by_version.1 2 (some "root") false 1 0 (some 1)
    [some AstV.nullV] []).1 (by decide)

/-- C6: The engine maintains two counters, one incremented on each visiter
entry and one on each visit-next call; the parse fails by raising an error as
soon as either (incremented) counter exceeds the fixed maximum of 10,000,000,
and a run that was never aborted by the guard never reports the budget
outcome: a budget outcome always exhibits a counter beyond the maximum. -/
theorem claim6_visiter_budget :
    (∀ (ctx : Ctx) (c : Config) (path : Path), ctx.mode = VMode.parse →
      c.control = Control.visit path →
      MAX_VISITER_CALL < c.callVisiterCount + 1 →
      step ctx c = StepRes.done Outcome.budget
        { c with callVisiterCount := c.callVisiterCount + 1 }) ∧
    (∀ (ctx : Ctx) (c : Config) (path : Path) (a : AstV), ctx.mode = VMode.parse →
      c.control = Control.visitNext path a →
      MAX_VISITER_CALL < c.callParentCount + 1 →
      step ctx c = StepRes.done Outcome.budget
        { c with callParentCount := c.callParentCount + 1 }) ∧
    (∀ (ctx : Ctx) (fuel : Nat) (c c' : Config),
      run ctx fuel c = some (Outcome.budget, c') →
      MAX_VISITER_CALL < c'.callVisiterCount ∨ MAX_VISITER_CALL < c'.callParentCount) ∧
    MAX_VISITER_CALL = 10000000 := by
  refine ⟨?_, ?_, ?_, rfl⟩
  · intro ctx c path hmode hctl hbig
    obtain ⟨md, sp, rl, cpt⟩ := ctx
    obtain ⟨tr, sc, ver, ps, chs, lm, mt, rec, cpn, cvc, cpc, ctl⟩ := c
    simp only at hmode hctl
    subst hmode
    subst hctl
    simp only [step]
    rw [if_pos hbig]
  · intro ctx c path a hmode hctl hbig
    obtain ⟨md, sp, rl, cpt⟩ := ctx
    obtain ⟨tr, sc, ver, ps, chs, lm, mt, rec, cpn, cvc, cpc, ctl⟩ := c
    simp only at hmode hctl
    subst hmode
    subst hctl
    simp only [step]
    rw [if_pos hbig]
  · intro ctx fuel c c' h
    exact (run_out ctx fuel c Outcome.budget c' h).2.2.2 rfl

theorem claim6_witness :
    step demoCtxParse demoCfgBudget =
      StepRes.done Outcome.budget
        { demoCfgBudget with callVisiterCount := demoCfgBudget.callVisiterCount + 1 } :=
  claim6_visiter_budget.1 demoCtxParse demoCfgBudget [] rfl rfl (by decide)

/-- C7: For every list of rule-body elements and every rule name, the
direct-left-recursion rewrite `solveDirectLeftRecursion` returns its input
element list unchanged (it is the identity on the elements); no rewrite of
left-recursive alternatives into the `(d | e) (b | c)*` form is performed. -/
theorem claim7_left_recursion_unchanged :
    ∀ (elements : List Element) (parentFunctionName : Option String),
      solveDirectLeftRecursion elements parentFunctionName = elements := by
  intro elements parentFunctionName
  rfl

/-- C2: For every parse that ends with `success = false`, the `error` field is
non-null and is determined by the best-progress (non-loose,
fewest-remaining-tokens) match: the parse result's error is exactly
`mkError tokens lastMatch suggestions`, which reports the token following the
best-progress token with reason `wrong` when one exists, and otherwise the
best-progress token itself (absent when no non-loose terminal ever matched)
with reason `incomplete`; and the tracked best-progress match is a non-loose
match of minimal remaining-token count over all non-loose matches of the
parse. -/
theorem claim2_error_from_best_progress :
    (∀ (special : String → Token → Bool) (rules : String → Option NodeT)
      (rootName : String) (tokens : List Token) (cursorIndex fuel : Nat)
      (pr : ParseResult),
      parse special rules rootName tokens cursorIndex fuel = some pr →
      pr.success = false →
      ∃ sugg, pr.error = some (mkError tokens pr.lastMatch sugg)) ∧
    (∀ (tokens : List Token) (lm : Option LastMatch) (sugg : List Matching),
      ((lm.bind fun l => l.token.bind (nextAfterTok tokens)) = none →
        (mkError tokens lm sugg).token = lm.bind (fun l => l.token) ∧
        (mkError tokens lm sugg).reason = ErrorReason.incomplete) ∧
      (∀ t2, (lm.bind fun l => l.token.bind (nextAfterTok tokens)) = some t2 →
        (mkError tokens lm sugg).token = some t2 ∧
        (mkError tokens lm sugg).reason = ErrorReason.wrong)) ∧
    (∀ (special : String → Token → Bool) (rules : String → Option NodeT)
      (rootName : String) (tokens : List Token) (cursorIndex fuel : Nat)
      (pr : ParseResult),
      parse special rules rootName tokens cursorIndex fuel = some pr →
      TrackerInv pr.lastMatch pr.matchTrace) := by
  refine ⟨?_, ?_, ?_⟩
  · intro special rules rootName tokens cursorIndex fuel pr h hfail
    exact (parse_shape special rules rootName tokens cursorIndex fuel pr h).2.2.2 hfail
  · intro tokens lm sugg
    constructor
    · intro hnone
      simp [mkError, hnone]
    · intro t2 hsome
      simp [mkError, hsome]
  · intro special rules rootName tokens cursorIndex fuel pr h
    exact (parse_shape special rules rootName tokens cursorIndex fuel pr h).2.1

theorem claim2_witness :
    ∃ pr, parse specialNone demoRules "root" [] 0 80 = some pr ∧ pr.success = false ∧
      ∃ sugg, pr.error = some (mkError [] pr.lastMatch sugg) := by
  cases hp : parse specialNone demoRules "root" [] 0 80 with
  | none =>
    have hs : (parse specialNone demoRules "root" [] 0 80).isSome = true := by decide
    rw [hp] at hs
    exact absurd hs (by simp)
  | some pr =>
    have hsucc : pr.success = false := by
      have h2 : (parse specialNone demoRules "root" [] 0 80).map (fun r => r.success) =
          some false := by decide
      rw [hp] at h2
      simpa using h2
    exact ⟨pr, rfl, hsucc,
      claim2_error_from_best_progress.1 specialNone demoRules "root" [] 0 80 pr hp hsucc⟩

/-- C5: The claim states that whenever a rule's candidate list comes to contain
only terminal match nodes, that list is published as the rule's final FIRST set
and every dependent rule recorded in the related set is re-resolved, so their
placeholders are eventually replaced by the published terminals.  The code
violates the second half: at chain.ts line 712 the `forEach` callback
references `solveFirstSet` without invoking it.  Concretely, with rule
`a = chain(b)` built before rule `b = chain('x')`, the faithful resolver
publishes `b`'s FIRST set but never re-resolves the recorded dependent `a`
(whose placeholder for `b` is by then resolvable), while the spec-intended
resolver (`solveFirstSetSpec`) resolves both. -/
theorem claim5_first_set_dependents :
    lookupS pAfterCode.firstSet "b" = some [xMatching] ∧
    lookupS pAfterCode.firstSet "a" = none ∧
    lookupS pAfterCode.relatedSet "b" = some ["a"] ∧
    lookupS pAfterCode.firstOrFunctionSet "a" = some [FirstOrF.fname "b"] ∧
    lookupS pAfterSpec.firstSet "b" = some [xMatching] ∧
    lookupS pAfterSpec.firstSet "a" = some [xMatching] := by
  refine ⟨?_, ?_, ?_, ?_, ?_, ?_⟩ <;> decide

/-- C8: In the next-match probe, whenever a loose terminal with value true is
reached, it is skipped over via visit-next without being recorded, so for
every parse a matching of kind loose with value true never appears in the
`nextMatchings` of the parse result. -/
theorem claim8_loose_true_skipped :
    (∀ (ctx : Ctx) (c : Config) (path : Path) (m : Matching),
      ctx.mode = VMode.probe → c.control = Control.visit path →
      getNode c.tree path = some (NodeT.matchN m) →
      m.type = MatchingType.loose → m.value = MatchingValue.bool true →
      step ctx c = StepRes.next { c with control := Control.visitNext path AstV.nullV }) ∧
    (∀ (special : String → Token → Bool) (rules : String → Option NodeT)
      (rootName : String) (tokens : List Token) (cursorIndex fuel : Nat)
      (pr : ParseResult) (m : Matching),
      parse special rules rootName tokens cursorIndex fuel = some pr →
      m ∈ pr.nextMatchings →
      ¬ (m.type = MatchingType.loose ∧ m.value = MatchingValue.bool true)) := by
  constructor
  · intro ctx c path m hmode hctl hn hty hval
    obtain ⟨md, sp, rl, cpt⟩ := ctx
    obtain ⟨tr, sc, ver, ps, chs, lm, mt, rec, cpn, cvc, cpc, ctl⟩ := c
    simp only at hmode hctl hn
    subst hmode
    subst hctl
    simp only [step, stepVisit, hn, visitMatchProbe]
    rw [if_pos ⟨hty, hval⟩]
  · intro special rules rootName tokens cursorIndex fuel pr m h hm
    exact (parse_shape special rules rootName tokens cursorIndex fuel pr h).1 m hm

theorem claim8_witness :
    step demoCtxProbe demoCfgLooseTrue =
      StepRes.next { demoCfgLooseTrue with control := Control.visitNext [0] AstV.nullV } :=
  claim8_loose_true_skipped.1 demoCtxProbe demoCfgLooseTrue [0] looseTrueM
    rfl rfl rfl rfl rfl

/-- C9: Whenever a chance is popped in `tryChances` (and whenever the
next-match probe is prepared — `findNextMatchNodes` applies the same
`resetParentsHeadIndexAndVersion` before running), every ancestor of the
chance's node is not merely stamped with the new version: each ancestor's
`headIndex` is set to its spine child's `parentIndex + 1`, clamped above by
the ancestor's number of children, with its `astResults` preserved; and a node
stamped with the store's version is left untouched by the lazy reset, so
ancestors resume just past the spine child rather than restarting at
`headIndex 0`. -/
theorem claim9_reset_parents_spine :
    (∀ (v : Nat) (t : NodeT) (q : Path) (i : Nat) (r : Path) (a : NodeT),
      getNode t q = some a → isParentNode a = true →
      ∃ a', getNode (resetParentsHeadIndexAndVersion v t (q ++ i :: r)) q = some a' ∧
        headIndexOf a' = min (i + 1) (childsOf a).length ∧
        versionOf a' = some v ∧
        astResultsOf a' = astResultsOf a ∧
        (childsOf a').length = (childsOf a).length) ∧
    (∀ (v : Nat) (n : NodeT), versionOf n = some v → resetHeadByVersion v n = n) ∧
    (∀ (c : Config) (ch : Chance) (rest : List Chance), c.chances = ch :: rest →
      ∃ c', tryChances c = StepRes.next c' ∧
        c'.version = c.parserState.version + 1 ∧
        c'.tree = resetParentsHeadIndexAndVersion c'.version
          (modifyNode c.tree ch.path (setHeadVer ch.headIndex c'.version)) ch.path) := by
  refine ⟨resetParents_ancestor, ?_, ?_⟩
  · intro v n hv
    cases n <;> simp [versionOf] at hv <;> simp [resetHeadByVersion, hv]
  · intro c ch rest hch
    simp only [tryChances, hch, getNewVersion]
    exact ⟨_, rfl, rfl, rfl⟩

theorem claim9_witness :
    ∃ a', getNode (resetParentsHeadIndexAndVersion 7 demoRoot ([] ++ 0 :: [0])) [] =
        some a' ∧
      headIndexOf a' = min (0 + 1) (childsOf demoRoot).length ∧
      versionOf a' = some 7 ∧
      astResultsOf a' = astResultsOf demoRoot ∧
      (childsOf a').length = (childsOf demoRoot).length :=
  claim9_reset_parents_spine.1 7 demoRoot [] 0 [0] demoRoot rfl rfl

/-- C10: In the next-match probe, every terminal reached that is not
loose-with-value-true is recorded in the result set before `tryChances` is
invoked; in particular a loose terminal with value false is recorded, so a
matching of kind loose with value false can appear in `nextMatchings` and in
error suggestions (witnessed by a concrete parse of the grammar
`root = chain([false, 'a'])` on empty input). -/
theorem claim10_nonloose_terminals_recorded :
    (∀ (ctx : Ctx) (c : Config) (path : Path) (m : Matching),
      ctx.mode = VMode.probe → c.control = Control.visit path →
      getNode c.tree path = some (NodeT.matchN m) →
      ¬ (m.type = MatchingType.loose ∧ m.value = MatchingValue.bool true) →
      step ctx c = tryChances { c with recorded := c.recorded ++ [(path, m)] }) ∧
    (∃ pr, parse specialNone demoRules "root" [] 0 80 = some pr ∧
      looseFalseM ∈ pr.nextMatchings ∧
      ∃ e, pr.error = some e ∧ looseFalseM ∈ e.suggestions) := by
  constructor
  · intro ctx c path m hmode hctl hn hneg
    obtain ⟨md, sp, rl, cpt⟩ := ctx
    obtain ⟨tr, sc, ver, ps, chs, lm, mt, rec, cpn, cvc, cpc, ctl⟩ := c
    simp only at hmode hctl hn
    subst hmode
    subst hctl
    simp only [step, stepVisit, hn, visitMatchProbe]
    rw [if_neg hneg]
  · cases hp : parse specialNone demoRules "root" [] 0 80 with
    | none =>
      have hs : (parse specialNone demoRules "root" [] 0 80).isSome = true := by decide
      rw [hp] at hs
      exact absurd hs (by simp)
    | some pr =>
      have h1 : (parse specialNone demoRules "root" [] 0 80).map
          (fun r => r.nextMatchings) = some [aMatching, looseFalseM] := by decide
      have h2 : (parse specialNone demoRules "root" [] 0 80).map (fun r => r.error) =
          some (some ⟨none, ErrorReason.incomplete, [looseFalseM, aMatching]⟩) := by
        decide
      rw [hp] at h1 h2
      simp only [Option.map_some', Option.some.injEq] at h1 h2
      refine ⟨pr, rfl, ?_, ?_⟩
      · rw [h1]
        decide
      · exact ⟨_, h2, by decide⟩

theorem claim10_witness :
    step demoCtxProbe demoCfgRecord =
      tryChances { demoCfgRecord with
        recorded := demoCfgRecord.recorded ++ [([0], aMatching)] } :=
  claim10_nonloose_terminals_recorded.1 demoCtxProbe demoCfgRecord [0] aMatching
    rfl rfl rfl (by decide)

end SyntaxParser
